import Mathlib

/-!
# Verification of the wasm bundle rewriter (`enarx-archive/client`)

This development shallowly embeds the streaming rewrite engine of the
repository:

* `src/wasm/bundle.rs` — `strip_section` (the chunked parser driver and
  section filter) and `Bundle::execute` (the custom-section appender);
* `src/util/ofile.rs` — `OutputFile`, the delete-on-drop transactional
  output file.

Bytes are modelled as `Nat` values (< 256 where it matters), byte buffers
as `List Nat`.  The incremental parse engine itself (the `wasmparser`
crate) is not part of the repository; it is modelled from the spec's
container grammar and the `next()` contract (spec §4.1, §6): a chunked
parser over `module := header, section*`, custom sections carrying a
name, opaque generic sections, and a nested section kind whose entries
are full sub-modules parsed by a pushed sub-parser context.
-/

namespace Bundle

/-- Modelled from the spec: the VarintCodec collaborator's
`encode(value) -> bytes` — unsigned LEB128: 7 payload bits per byte,
most-significant continuation bit, little-endian group order. -/
def leb128 (n : Nat) : List Nat :=
  if h : n < 128 then [n]
  else (n % 128 + 128) :: leb128 (n / 128)
decreasing_by
  exact Nat.div_lt_self (by omega) (by omega)

/-- Chunked unsigned-LEB128 decoding from the front of a buffer:
`some (value, bytesUsed)` when a terminating byte is present,
`none` when the buffer ends mid-varint (more data is needed). -/
def decodeVarint : List Nat → Option (Nat × Nat)
  | [] => none
  | b :: rest =>
    if b < 128 then some (b, 1)
    else
      match decodeVarint rest with
      | some (v, k) => some (b % 128 + v * 128, k + 1)
      | none => none

theorem leb128_ne_nil (n : Nat) : leb128 n ≠ [] := by
  unfold leb128
  split <;> simp

theorem leb128_length_pos (n : Nat) : 0 < (leb128 n).length := by
  cases h : leb128 n with
  | nil => exact absurd h (leb128_ne_nil n)
  | cons a l => simp

/-- Decoding an encoded varint consumes exactly the encoding and returns
the original value, for any continuation of the buffer. -/
theorem decodeVarint_leb128 (n : Nat) (rest : List Nat) :
    decodeVarint (leb128 n ++ rest) = some (n, (leb128 n).length) := by
  induction n using Nat.strong_induction_on with
  | _ n ih =>
    unfold leb128
    split
    · next h =>
      simp [decodeVarint, h]
    · next h =>
      have hdiv : n / 128 < n := Nat.div_lt_self (by omega) (by omega)
      simp only [List.cons_append, decodeVarint]
      rw [if_neg (by omega)]
      rw [List.append_eq, ih (n / 128) hdiv]
      simp only [List.length_cons]
      congr 2
      omega

/-! ## The chunked parse engine

Modelled from the spec: the event-producing incremental parse engine (the
`wasmparser` crate behind `Parser::parse`) is not part of this repository.
It is modelled from the spec's container grammar (§6) and the `next()`
contract (§4.1): `parse` consumes from a staging buffer and either yields
a `(consumed, payload)` pair, asks for more data with a positive hint, or
fails with `MalformedInput` when the stream ends mid-structure.  Nested
structures (spec §3, "a sub-region inside a code-bearing section") are
modelled as a dedicated section id whose payload is a sequence of
size-prefixed sub-modules; entering a sub-module yields a push event
carrying a fresh sub-parser, and exhausting a region yields an
end-of-structure event; these two delimiting events consume no bytes
themselves (region sizes travel inside preceding content events), so that
forwarding every non-filtered event reproduces the input byte-for-byte,
as the spec's round-trip property (§8) requires. -/

/-- The fixed 8-byte module header (magic plus version). -/
def headerBytes : List Nat := [0, 97, 115, 109, 1, 0, 0, 0]

/-- Section id of a custom section. -/
def customId : Nat := 0

/-- Modelled from the spec: section id of the nested, sub-module-bearing
section kind (the code-bearing section of spec §3). -/
def nestedId : Nat := 15

/-- Parser context: the state of one incremental parser.  `budget` is the
number of bytes remaining in the region this parser is scoped to
(`none` for the top level, which runs until end of input). -/
inductive MParser where
  /-- Expecting the 8-byte module header. -/
  | header (budget : Option Nat)
  /-- Expecting the next section of the current module region. -/
  | body (budget : Option Nat)
  /-- Inside a nested section with `rem` bytes of entries left;
  `after` is the enclosing module region's budget after this section. -/
  | entries (rem : Nat) (after : Option Nat)
  /-- An entry size header was just consumed; the next event hands out
  the sub-parser for a `size`-byte sub-module. -/
  | entryPending (size : Nat) (rem : Nat) (after : Option Nat)
  /-- The region ended; this context produces no further events. -/
  | done
  deriving Repr, DecidableEq

/-- Structural events, named after the `wasmparser::Payload` variants the
driver in `strip_section` matches on. -/
inductive Payload where
  | version
  | customSection (name : List Nat)
  | other
  | moduleCodeSectionEntry (sub : MParser)
  | end_
  deriving Repr, DecidableEq

/-- Outcome of one parse attempt (`wasmparser::Chunk`). -/
inductive Chunk where
  | needMoreData (hint : Nat)
  | parsed (consumed : Nat) (payload : Payload)
  deriving Repr, DecidableEq

/-- Parse errors: the stream cannot be interpreted as a valid container. -/
inductive PErr where
  | malformedInput
  deriving Repr, DecidableEq

/-- `true` when a regioned budget admits `n` more bytes. -/
def budgetAtLeast (budget : Option Nat) (n : Nat) : Bool :=
  match budget with
  | none => true
  | some b => n ≤ b

/-- Subtract consumed bytes from a region budget. -/
def budgetSub (budget : Option Nat) (n : Nat) : Option Nat :=
  budget.map (· - n)

/-- Normalizing constructor: a nested section with no entry bytes left
resumes the enclosing module region immediately. -/
def mkEntries (rem : Nat) (after : Option Nat) : MParser :=
  if rem = 0 then .body after else .entries rem after

/-- Modelled from the spec: one incremental parse attempt over the staging
buffer (spec §4.1).  Returns the updated parser context together with a
chunk, or fails with `MalformedInput` when the input ends mid-structure
or the content is structurally invalid. -/
def parse (p : MParser) (buf : List Nat) (eof : Bool) :
    Except PErr (MParser × Chunk) :=
  match p with
  | .header budget =>
    if budgetAtLeast budget 8 then
      if buf.length < 8 then
        if eof then .error .malformedInput
        else .ok (.header budget, .needMoreData (8 - buf.length))
      else if buf.take 8 = headerBytes then
        .ok (.body (budgetSub budget 8), .parsed 8 .version)
      else .error .malformedInput
    else .error .malformedInput
  | .body budget =>
    if budget = some 0 then
      .ok (.done, .parsed 0 .end_)
    else
      match buf with
      | [] =>
        if eof then
          if budget = none then .ok (.done, .parsed 0 .end_)
          else .error .malformedInput
        else .ok (.body budget, .needMoreData 1)
      | id :: rest =>
        match decodeVarint rest with
        | none =>
          if eof then .error .malformedInput
          else .ok (.body budget, .needMoreData 1)
        | some (len, vl) =>
          if budgetAtLeast budget (1 + vl + len) then
            if id = customId then
              if buf.length < 1 + vl + len then
                if eof then .error .malformedInput
                else .ok (.body budget, .needMoreData (1 + vl + len - buf.length))
              else
                let payload := (buf.drop (1 + vl)).take len
                match decodeVarint payload with
                | none => .error .malformedInput
                | some (nlen, nl) =>
                  if nl + nlen ≤ len then
                    .ok (.body (budgetSub budget (1 + vl + len)),
                         .parsed (1 + vl + len)
                           (.customSection ((payload.drop nl).take nlen)))
                  else .error .malformedInput
            else if id = nestedId then
              .ok (mkEntries len (budgetSub budget (1 + vl + len)),
                   .parsed (1 + vl) .other)
            else
              if buf.length < 1 + vl + len then
                if eof then .error .malformedInput
                else .ok (.body budget, .needMoreData (1 + vl + len - buf.length))
              else
                .ok (.body (budgetSub budget (1 + vl + len)),
                     .parsed (1 + vl + len) .other)
          else .error .malformedInput
  | .entries rem after =>
    match decodeVarint buf with
    | none =>
      if eof then .error .malformedInput
      else .ok (.entries rem after, .needMoreData 1)
    | some (size, vl) =>
      if vl + size ≤ rem then
        .ok (.entryPending size (rem - vl - size) after, .parsed vl .other)
      else .error .malformedInput
  | .entryPending size rem after =>
    .ok (mkEntries rem after,
         .parsed 0 (.moduleCodeSectionEntry (.header (some size))))
  | .done => .error .malformedInput

/-! ## The strip driver — `strip_section` (src/wasm/bundle.rs, lines 71-123)

The loop state carries the growable staging buffer, the active parser,
the end-of-input flag, the nesting stack, the still-unread input bytes,
and the bytes written to the output so far.  `trace` records each
successfully parsed event (the staging buffer and nesting depth at that
parse, the consumed count and the payload); it is write-only
instrumentation, never read by the driver. -/

/-- One recorded structural event of a strip pass. -/
structure Evt where
  buf : List Nat
  depth : Nat
  consumed : Nat
  payload : Payload
  deriving Repr, DecidableEq

/-- The mutable state of the `strip_section` loop. -/
structure StripState where
  buffer : List Nat
  parser : MParser
  eofile : Bool
  pstack : List MParser
  input : List Nat
  output : List Nat
  trace : List Evt
  deriving Repr, DecidableEq

/-- Result of one iteration of the `strip_section` loop body. -/
inductive StepRes where
  /-- The loop continues with an updated state. -/
  | cont (s : StripState)
  /-- `return Ok(output)` — the pass is complete. -/
  | ok (s : StripState)
  /-- `?` propagated a parse error. -/
  | err (e : PErr)
  /-- `assert!(!eofile)` failed. -/
  | panic
  deriving Repr, DecidableEq

/-- One iteration of the `loop` in `strip_section`: a parse attempt,
then either the refill-and-retry branch (`Chunk::NeedMoreData`) or the
event dispatch (`match payload`) followed by `buffer.drain(..consumed)`.
Reads from the input file deliver `min hint remaining` bytes. -/
def stripStep (sname : List Nat) (s : StripState) : StepRes :=
  match parse s.parser s.buffer s.eofile with
  | .error e => .err e
  | .ok (p, .needMoreData hint) =>
    if s.eofile then .panic   -- assert!(!eofile)
    else
      let len := s.buffer.length
      let n := min hint s.input.length
      -- buffer.extend(hint zeros); read fills buffer[len..len+n]; truncate(len + n)
      let filled := s.buffer ++ (s.input.take n ++ List.replicate (hint - n) 0)
      .cont { s with
        parser := p
        buffer := filled.take (len + n)
        input := s.input.drop n
        eofile := n == 0 }
  | .ok (p, .parsed consumed payload) =>
    let logged := { s with
      trace := s.trace ++ [Evt.mk s.buffer s.pstack.length consumed payload] }
    match payload with
    | .moduleCodeSectionEntry sub =>
      .cont { logged with
        parser := sub
        pstack := p :: s.pstack
        buffer := s.buffer.drop consumed }
    | .end_ =>
      match s.pstack with
      | pp :: rest =>
        .cont { logged with
          parser := pp
          pstack := rest
          buffer := s.buffer.drop consumed }
      | [] => .ok { logged with parser := p }   -- return Ok(output)
    | .customSection name =>
      if name = sname then
        .cont { logged with parser := p, buffer := s.buffer.drop consumed }
      else
        .cont { logged with
          parser := p
          output := s.output ++ s.buffer.take consumed
          buffer := s.buffer.drop consumed }
    | _ =>
      .cont { logged with
        parser := p
        output := s.output ++ s.buffer.take consumed
        buffer := s.buffer.drop consumed }

/-- Final outcome of a strip pass. -/
inductive RunResult where
  | ok (s : StripState)
  | err (e : PErr)
  | panic
  /-- Out of fuel (the loop had not finished within `fuel` iterations). -/
  | more (s : StripState)
  deriving Repr, DecidableEq

/-- The `strip_section` loop: iterate `stripStep` up to `fuel` times. -/
def stripRun (sname : List Nat) : Nat → StripState → RunResult
  | 0, s => .more s
  | fuel + 1, s =>
    match stripStep sname s with
    | .cont s' => stripRun sname fuel s'
    | .ok s' => .ok s'
    | .err e => .err e
    | .panic => .panic

/-- The initial state of `strip_section`: empty buffer, fresh top-level
parser (`Parser::new(0)`), `eofile = false`, empty nesting stack. -/
def initState (input : List Nat) : StripState :=
  { buffer := [], parser := .header none, eofile := false, pstack := [],
    input := input, output := [], trace := [] }

/-- `strip_section(section, ifile, ofile)`: run the loop on the whole
input stream. -/
def stripSection (sname input : List Nat) (fuel : Nat) : RunResult :=
  stripRun sname fuel (initState input)

/-! ## Abstract modules and their encoding

To quantify over "every valid module" (spec §8) we describe modules by an
abstract syntax and encode it to bytes following the container grammar of
spec §6.  A module is a list of sections; a section is a custom section
(name and opaque content), a generic section (opaque payload, any other
id), or a nested section holding a list of sub-modules. -/

/-- Abstract syntax of a section. -/
inductive Sec where
  | custom (name content : List Nat)
  | other (id : Nat) (payload : List Nat)
  | nested (mods : List (List Sec))

mutual

/-- Encode one section: id byte, payload-length varint, payload. -/
def encSec : Sec → List Nat
  | .custom name content =>
    customId :: leb128 (leb128 name.length ++ name ++ content).length
      ++ (leb128 name.length ++ name ++ content)
  | .other i payload => i :: leb128 payload.length ++ payload
  | .nested mods => nestedId :: leb128 (encMods mods).length ++ encMods mods

/-- Encode a nested section's entry list: each sub-module is prefixed by
its encoded size as a varint. -/
def encMods : List (List Sec) → List Nat
  | [] => []
  | m :: ms =>
    leb128 (headerBytes ++ encSecs m).length
      ++ (headerBytes ++ encSecs m) ++ encMods ms

/-- Encode a list of sections by concatenation. -/
def encSecs : List Sec → List Nat
  | [] => []
  | s :: ss => encSec s ++ encSecs ss

end

/-- Encode a whole module: header then sections. -/
def encMod (m : List Sec) : List Nat := headerBytes ++ encSecs m

mutual

/-- Well-formed section: generic ids are bytes distinct from the custom
and nested ids, and nested sub-modules are themselves well-formed. -/
def wfSec : Sec → Prop
  | .custom _ _ => True
  | .other i _ => i < 256 ∧ i ≠ customId ∧ i ≠ nestedId
  | .nested mods => wfMods mods

def wfMods : List (List Sec) → Prop
  | [] => True
  | m :: ms => wfSecs m ∧ wfMods ms

def wfSecs : List Sec → Prop
  | [] => True
  | s :: ss => wfSec s ∧ wfSecs ss

end

mutual

/-- No custom section anywhere in this section (at any nesting level)
is named `sname`. -/
def noNameSec (sname : List Nat) : Sec → Prop
  | .custom name _ => name ≠ sname
  | .other _ _ => True
  | .nested mods => noNameMods sname mods

def noNameMods (sname : List Nat) : List (List Sec) → Prop
  | [] => True
  | m :: ms => noNameSecs sname m ∧ noNameMods sname ms

def noNameSecs (sname : List Nat) : List Sec → Prop
  | [] => True
  | s :: ss => noNameSec sname s ∧ noNameSecs sname ss

end

/-! ## The transactional output file — `OutputFile` (src/util/ofile.rs)

The filesystem is modelled as an association list from paths to file
contents together with the set of open resource ids.  `File::create`
truncates/creates the path and opens a fresh resource; dropping an armed
`OutputFile` closes the resource and best-effort removes the path
(`drop(std::fs::remove_file(path))` — the `Result` is discarded);
`done()` takes the inner state out, so the later drop of the husk does
nothing.  Operations that call `.unwrap()` on the inner `Option` are
modelled as `Option`-returning: `none` is a panic. -/

/-- A filesystem snapshot: path contents plus open resource ids. -/
structure FS where
  files : List (String × List Nat)
  openIds : List Nat
  nextId : Nat
  deriving Repr, DecidableEq

/-- Association lookup over path-content pairs. -/
def lookupA : List (String × List Nat) → String → Option (List Nat)
  | [], _ => none
  | kv :: t, p => if kv.1 = p then some kv.2 else lookupA t p

/-- Content at a path, if the file exists. -/
def FS.lookup (fs : FS) (p : String) : Option (List Nat) :=
  lookupA fs.files p

/-- `std::fs::remove_file`: fails when the path does not exist. -/
def FS.removeFile (fs : FS) (p : String) : Except Unit FS :=
  match lookupA fs.files p with
  | none => .error ()
  | some _ => .ok { fs with files := fs.files.filter (fun kv => kv.1 ≠ p) }

/-- `File::create`: truncate/create the path, open a fresh resource. -/
def FS.createFile (fs : FS) (p : String) : FS × Nat :=
  ({ fs with
      files := (p, []) :: fs.files.filter (fun kv => kv.1 ≠ p)
      openIds := fs.nextId :: fs.openIds
      nextId := fs.nextId + 1 },
   fs.nextId)

/-- Dropping a `File` closes its resource. -/
def FS.closeFile (fs : FS) (id : Nat) : FS :=
  { fs with openIds := fs.openIds.filter (fun i => i ≠ id) }

/-- Append bytes to a file (a pass-through `write_all`). -/
def FS.append (fs : FS) (p : String) (bytes : List Nat) : FS :=
  { fs with
      files := fs.files.map (fun kv => if kv.1 = p then (kv.1, kv.2 ++ bytes) else kv) }

/-- `struct Inner { file: File, path: T }` with `T = String`. -/
structure Inner where
  file : Nat
  path : String
  deriving Repr, DecidableEq

/-- `pub struct OutputFile<T>(Option<Inner<T>>)`. -/
structure OutputFile where
  inner : Option Inner
  deriving Repr, DecidableEq

/-- `OutputFile::create(path)`: eagerly create the file, return an armed
handle. -/
def OutputFile.create (fs : FS) (path : String) : OutputFile × FS :=
  let (fs', id) := fs.createFile path
  ({ inner := some { file := id, path := path } }, fs')

/-- `OutputFile::done`: `self.0.take().unwrap().file` — consumes the
handle, returns the `File`; `none` is the unwrap panic. -/
def OutputFile.done (o : OutputFile) : Option (Nat × OutputFile) :=
  match o.inner with
  | some i => some (i.file, { inner := none })
  | none => none

/-- `Drop for OutputFile`: if the inner state is still present, drop the
`File` (closing it) and then `drop(std::fs::remove_file(path))`,
discarding any removal error. -/
def OutputFile.dropRun (o : OutputFile) (fs : FS) : FS :=
  match o.inner with
  | some i =>
    let fs1 := fs.closeFile i.file
    match fs1.removeFile i.path with
    | .ok fs2 => fs2
    | .error _ => fs1
  | none => fs

/-- The pass-through operations of the `Read`/`Write`/`Seek`/`FileExt`/
`AsRawFd` impls, each of which calls `.unwrap()` on the inner option. -/
inductive OFOp where
  | read
  | readVectored
  | write (bytes : List Nat)
  | writeVectored (bytes : List Nat)
  | flush
  | seek (pos : Nat)
  | readAt (off : Nat)
  | writeAt (bytes : List Nat) (off : Nat)
  | asRawFd
  deriving Repr, DecidableEq

/-- Run one pass-through operation: `none` models the unwrap panic; the
handle itself is never consumed by these operations. -/
def OutputFile.applyOp (o : OutputFile) (fs : FS) : OFOp → Option (OutputFile × FS)
  | .write bytes => o.inner.map (fun i => (o, fs.append i.path bytes))
  | .writeVectored bytes => o.inner.map (fun i => (o, fs.append i.path bytes))
  | .writeAt bytes _ => o.inner.map (fun i => (o, fs.append i.path bytes))
  | _ => o.inner.map (fun _ => (o, fs))

/-- Run a sequence of pass-through operations. -/
def OutputFile.applyOps (o : OutputFile) (fs : FS) : List OFOp → Option (OutputFile × FS)
  | [] => some (o, fs)
  | op :: ops =>
    match o.applyOp fs op with
    | none => none
    | some (o', fs') => o'.applyOps fs' ops

/-! ## The section appender — `Bundle::execute` (src/wasm/bundle.rs, lines 125-152) -/

/-- The bytes `Bundle::execute` appends after the strip pass, in write
order: `output.write_all(&[0])`, then `payload_len.encode(&mut output,
Leb128)` with `payload_len = tarball_len + name.len() + name_len.len()`,
then the encoded name length, the name bytes, and the tarball copy. -/
def appendSection (name tarball output : List Nat) : List Nat :=
  let name_len := leb128 name.length
  let payload_len := tarball.length + name.length + name_len.length
  output ++ [0] ++ leb128 payload_len ++ name_len ++ name ++ tarball

/-! ## Theorems: the transactional output file -/

theorem lookupA_filter_ne (l : List (String × List Nat)) (p : String) :
    lookupA (l.filter (fun kv => kv.1 ≠ p)) p = none := by
  induction l with
  | nil => rfl
  | cons kv t ih =>
    by_cases h : kv.1 = p
    · simpa [List.filter_cons, h] using ih
    · simpa [List.filter_cons, h, lookupA] using ih

theorem append_lookup_isSome (fs : FS) (p q : String) (bytes : List Nat) :
    ((fs.append p bytes).lookup q).isSome = (fs.lookup q).isSome := by
  unfold FS.append FS.lookup
  simp only
  induction fs.files with
  | nil => rfl
  | cons kv t ih =>
    by_cases h : kv.1 = p
    · by_cases hq : p = q <;> simp [lookupA, h, hq, ih]
    · by_cases hq : kv.1 = q
      · have h' : ¬q = p := fun e => h (hq.trans e)
        simp [lookupA, hq, h', ih]
      · simp [lookupA, h, hq, ih]

theorem applyOp_armed (o : OutputFile) (fs : FS) (op : OFOp)
    (h : o.inner.isSome) : ∃ fs', o.applyOp fs op = some (o, fs') := by
  obtain ⟨i, hi⟩ := Option.isSome_iff_exists.mp h
  cases op <;> simp [OutputFile.applyOp, hi]

theorem applyOp_lookup_isSome (o : OutputFile) (fs fs' : FS) (op : OFOp)
    (q : String) (h : o.applyOp fs op = some (o, fs')) :
    (fs'.lookup q).isSome = (fs.lookup q).isSome := by
  cases hi : o.inner with
  | none => cases op <;> simp [OutputFile.applyOp, hi] at h
  | some i =>
    cases op <;>
      simp only [OutputFile.applyOp, hi, Option.map_some', Option.some.injEq,
        Prod.mk.injEq] at h <;>
      rw [← h.2] <;>
      first
        | rfl
        | exact append_lookup_isSome ..

theorem applyOps_armed (ops : List OFOp) (o : OutputFile) (fs : FS)
    (h : o.inner.isSome) :
    ∃ fs', o.applyOps fs ops = some (o, fs') ∧
      ∀ q, (fs'.lookup q).isSome = (fs.lookup q).isSome := by
  induction ops generalizing fs with
  | nil => exact ⟨fs, rfl, fun _ => rfl⟩
  | cons op ops ih =>
    obtain ⟨fs1, hop⟩ := applyOp_armed o fs op h
    obtain ⟨fs', hops, hq⟩ := ih fs1
    refine ⟨fs', ?_, fun q => (hq q).trans (applyOp_lookup_isSome o fs fs1 op q hop)⟩
    simp [OutputFile.applyOps, hop, hops]

theorem dropRun_armed_lookup (i : Inner) (fs : FS) :
    ((OutputFile.mk (some i)).dropRun fs).lookup i.path = none := by
  unfold OutputFile.dropRun
  simp only
  cases hrm : (fs.closeFile i.file).removeFile i.path with
  | ok fs2 =>
    unfold FS.removeFile at hrm
    cases hl : lookupA (fs.closeFile i.file).files i.path with
    | none => rw [hl] at hrm; cases hrm
    | some c =>
      rw [hl] at hrm
      cases hrm
      exact lookupA_filter_ne ..
  | error e =>
    unfold FS.removeFile at hrm
    cases hl : lookupA (fs.closeFile i.file).files i.path with
    | none => exact hl
    | some c => rw [hl] at hrm; cases hrm

/-- C2: dropping an armed `OutputFile` closes the underlying resource and
removes the file at its path, swallowing a removal failure (when the path
is already absent the drop still closes the resource and propagates no
error); consequently, after `create` and any sequence of pass-through
operations, dropping the still-armed handle leaves no file at the
destination path. -/
theorem claim2_drop_deletes (i : Inner) (fs : FS) (path : String)
    (ops : List OFOp) (o' : OutputFile) (fs' : FS)
    (h : (OutputFile.create fs path).1.applyOps (OutputFile.create fs path).2 ops
          = some (o', fs')) :
    ((OutputFile.mk (some i)).dropRun fs).lookup i.path = none ∧
    i.file ∉ ((OutputFile.mk (some i)).dropRun fs).openIds ∧
    (fs.lookup i.path = none →
      (OutputFile.mk (some i)).dropRun fs = fs.closeFile i.file) ∧
    (o'.dropRun fs').lookup path = none := by
  refine ⟨dropRun_armed_lookup i fs, ?_, ?_, ?_⟩
  · unfold OutputFile.dropRun
    simp only
    cases hrm : (fs.closeFile i.file).removeFile i.path with
    | ok fs2 =>
      have hopen : fs2.openIds = (fs.closeFile i.file).openIds := by
        unfold FS.removeFile at hrm
        cases hl : lookupA (fs.closeFile i.file).files i.path with
        | none => rw [hl] at hrm; cases hrm
        | some c => rw [hl] at hrm; cases hrm; rfl
      show i.file ∉ fs2.openIds
      rw [hopen]
      simp [FS.closeFile]
    | error e =>
      show i.file ∉ (fs.closeFile i.file).openIds
      simp [FS.closeFile]
  · intro habs
    unfold OutputFile.dropRun
    simp only
    have hcl : lookupA (fs.closeFile i.file).files i.path = none := habs
    unfold FS.removeFile
    rw [hcl]
  · have harmed : (OutputFile.create fs path).1.inner.isSome := by
      simp [OutputFile.create]
    obtain ⟨fs1, hops, _⟩ :=
      applyOps_armed ops (OutputFile.create fs path).1 (OutputFile.create fs path).2 harmed
    rw [hops] at h
    injection h with h1
    injection h1 with ho hf
    subst o'
    subst fs'
    simpa [OutputFile.create, FS.createFile] using
      dropRun_armed_lookup { file := fs.nextId, path := path } fs1

/-- C2 witness: a concrete create-write-drop sequence ends with no file
at the destination path. -/
theorem claim2_drop_deletes_witness :
    ((OutputFile.mk (some (Inner.mk 7 "x"))).dropRun
        (FS.mk [] [] 0)).lookup "x" = none ∧
    ((OutputFile.mk (some (Inner.mk 0 "out"))).dropRun
        (FS.mk [("out", [1, 2])] [0] 1)).lookup "out" = none := by
  have h := claim2_drop_deletes (Inner.mk 7 "x") (FS.mk [] [] 0)
    "out" [OFOp.write [1, 2]]
    (OutputFile.mk (some (Inner.mk 0 "out")))
    (FS.mk [("out", [1, 2])] [0] 1)
    (by decide)
  exact ⟨h.1, h.2.2.2⟩

/-- C3: `done()` consumes the handle and returns the underlying file,
leaving a disarmed husk whose drop performs no filesystem change; after
create, pass-through writes, and `done`, dropping the husk leaves the
destination file in place. -/
theorem claim3_done_disarms (i : Inner) (fs : FS) (path : String)
    (ops : List OFOp) (o' : OutputFile) (fs' : FS)
    (h : (OutputFile.create fs path).1.applyOps (OutputFile.create fs path).2 ops
          = some (o', fs')) :
    (OutputFile.mk (some i)).done = some (i.file, OutputFile.mk none) ∧
    (OutputFile.mk none).dropRun fs = fs ∧
    (∀ f o'', o'.done = some (f, o'') →
      (o''.dropRun fs').lookup path = fs'.lookup path ∧
      (fs'.lookup path).isSome = true) := by
  refine ⟨rfl, rfl, ?_⟩
  have harmed : (OutputFile.create fs path).1.inner.isSome := by
    simp [OutputFile.create]
  obtain ⟨fs1, hops, hq⟩ :=
    applyOps_armed ops (OutputFile.create fs path).1 (OutputFile.create fs path).2 harmed
  rw [hops] at h
  cases h
  intro f o'' hdone
  simp only [OutputFile.done, OutputFile.create] at hdone
  cases hdone
  constructor
  · rfl
  · rw [hq path]
    simp [OutputFile.create, FS.createFile, FS.lookup, lookupA]

/-- C3 witness: a concrete create-write-done-drop sequence keeps the
destination file. -/
theorem claim3_done_disarms_witness :
    ((OutputFile.mk none).dropRun (FS.mk [("out", [1, 2])] [0] 1)).lookup "out"
        = (FS.mk [("out", [1, 2])] [0] 1).lookup "out" ∧
    ((FS.mk [("out", [1, 2])] [0] 1).lookup "out").isSome = true := by
  have h := claim3_done_disarms (Inner.mk 0 "out") (FS.mk [] [] 0)
    "out" [OFOp.write [1, 2]]
    (OutputFile.mk (some (Inner.mk 0 "out")))
    (FS.mk [("out", [1, 2])] [0] 1)
    (by decide)
  exact h.2.2 0 (OutputFile.mk none) (by decide)

/-- C10: every handle obtained from `create` is armed, stays armed across
every sequence of pass-through operations, and `done` succeeds on it:
none of the `unwrap` calls in the handle's operations can panic. -/
theorem claim10_no_unwrap_panic (fs : FS) (path : String) (ops : List OFOp) :
    ∃ o' fs',
      (OutputFile.create fs path).1.applyOps (OutputFile.create fs path).2 ops
        = some (o', fs') ∧
      o'.inner.isSome = true ∧ o'.done.isSome = true := by
  have harmed : (OutputFile.create fs path).1.inner.isSome := by
    simp [OutputFile.create]
  obtain ⟨fs', hops, _⟩ :=
    applyOps_armed ops (OutputFile.create fs path).1 (OutputFile.create fs path).2 harmed
  refine ⟨_, fs', hops, harmed, ?_⟩
  simp [OutputFile.done, OutputFile.create]

/-! ## Theorems: the section appender -/

/-- C7: after the strip pass the appended custom section is exactly: one
id byte `0`; the total payload length — the byte length of the
LEB128-encoded name length, plus the name's byte length, plus the
content's byte length — as an unsigned LEB128 varint; the name length as
an unsigned LEB128 varint; the name bytes; then the content bytes. -/
theorem claim7_appended_section_layout (name tarball output : List Nat) :
    appendSection name tarball output =
      output ++ [0]
        ++ leb128 ((leb128 name.length).length + name.length + tarball.length)
        ++ leb128 name.length ++ name ++ tarball := by
  show output ++ [0]
      ++ leb128 (tarball.length + name.length + (leb128 name.length).length)
      ++ leb128 name.length ++ name ++ tarball = _
  have h : tarball.length + name.length + (leb128 name.length).length
      = (leb128 name.length).length + name.length + tarball.length := by omega
  rw [h]

/-! ## Parser-level facts -/

theorem decodeVarint_used_le (l : List Nat) (v k : Nat)
    (h : decodeVarint l = some (v, k)) : k ≤ l.length := by
  induction l generalizing v k with
  | nil => cases h
  | cons b rest ih =>
    unfold decodeVarint at h
    split at h
    · cases h; simp
    · split at h
      · next v' k' heq =>
        cases h
        have := ih _ _ heq
        simp only [List.length_cons]
        omega
      · cases h

theorem decodeVarint_used_pos (l : List Nat) (v k : Nat)
    (h : decodeVarint l = some (v, k)) : 1 ≤ k := by
  cases l with
  | nil => cases h
  | cons b rest =>
    unfold decodeVarint at h
    split at h
    · cases h; omega
    · split at h
      · cases h; omega
      · cases h

/-- A successful parse consumes no more than the buffer holds; the
end-of-structure and nested-entry events consume nothing. -/
theorem parse_parsed_facts (p p' : MParser) (buf : List Nat) (eof : Bool)
    (c : Nat) (pl : Payload)
    (h : parse p buf eof = .ok (p', .parsed c pl)) :
    c ≤ buf.length ∧ (pl = .end_ → c = 0) ∧
    (∀ sub, pl = .moduleCodeSectionEntry sub → c = 0) := by
  cases p <;> simp only [parse] at h <;>
    (repeat' split at h) <;>
    (try cases h) <;>
    (try exact ⟨by omega, by simp, by simp⟩)
  · rename_i heq hb hc hn
    have := decodeVarint_used_le _ _ _ heq
    refine ⟨?_, by simp, by simp⟩
    simp only [List.length_cons]
    omega
  · rename_i x1 n1 heq hle
    have := decodeVarint_used_le _ _ _ heq
    exact ⟨this, by simp, by simp⟩

/-- At end of input the parser never asks for more data: it either makes
progress or fails with `MalformedInput`. -/
theorem parse_eof_no_needMoreData (p p' : MParser) (buf : List Nat)
    (hint : Nat) :
    parse p buf true ≠ .ok (p', .needMoreData hint) := by
  intro h
  cases p <;> simp only [parse] at h <;>
    (repeat' split at h) <;>
    (try cases h) <;>
    simp_all

/-- A data request always asks for at least one byte. -/
theorem parse_hint_pos (p p' : MParser) (buf : List Nat) (eof : Bool)
    (hint : Nat) (h : parse p buf eof = .ok (p', .needMoreData hint)) :
    1 ≤ hint := by
  cases p <;> simp only [parse] at h <;>
    (repeat' split at h) <;>
    (try cases h) <;>
    omega

/-! ## Theorems: the refill, drain and nesting behaviour of the driver -/

theorem take_append_exact (a t z : List Nat) (n : Nat) (ht : t.length = n) :
    (a ++ (t ++ z)).take (a.length + n) = a ++ t := by
  rw [List.take_append_eq_append_take, List.take_of_length_le (by omega),
    Nat.add_sub_cancel_left, List.take_append_eq_append_take,
    List.take_of_length_le (by omega), ht, Nat.sub_self, List.take_zero,
    List.append_nil]

/-- How one loop iteration reacts to each event, as one lemma per payload
shape (these reductions are definitional once the payload constructor is
fixed). -/
theorem stripStep_version (sname : List Nat) (s : StripState) (p : MParser)
    (c : Nat)
    (hp : parse s.parser s.buffer s.eofile = .ok (p, .parsed c .version)) :
    stripStep sname s = .cont
      { s with
        parser := p
        output := s.output ++ s.buffer.take c
        buffer := s.buffer.drop c
        trace := s.trace ++ [Evt.mk s.buffer s.pstack.length c .version] } := by
  unfold stripStep
  rw [hp]

theorem stripStep_other (sname : List Nat) (s : StripState) (p : MParser)
    (c : Nat)
    (hp : parse s.parser s.buffer s.eofile = .ok (p, .parsed c .other)) :
    stripStep sname s = .cont
      { s with
        parser := p
        output := s.output ++ s.buffer.take c
        buffer := s.buffer.drop c
        trace := s.trace ++ [Evt.mk s.buffer s.pstack.length c .other] } := by
  unfold stripStep
  rw [hp]

theorem stripStep_custom_match (sname : List Nat) (s : StripState)
    (p : MParser) (c : Nat)
    (hp : parse s.parser s.buffer s.eofile
        = .ok (p, .parsed c (.customSection sname))) :
    stripStep sname s = .cont
      { s with
        parser := p
        buffer := s.buffer.drop c
        trace := s.trace
          ++ [Evt.mk s.buffer s.pstack.length c (.customSection sname)] } := by
  unfold stripStep
  rw [hp]
  simp

theorem stripStep_custom_other (sname name : List Nat) (s : StripState)
    (p : MParser) (c : Nat) (hne : name ≠ sname)
    (hp : parse s.parser s.buffer s.eofile
        = .ok (p, .parsed c (.customSection name))) :
    stripStep sname s = .cont
      { s with
        parser := p
        output := s.output ++ s.buffer.take c
        buffer := s.buffer.drop c
        trace := s.trace
          ++ [Evt.mk s.buffer s.pstack.length c (.customSection name)] } := by
  unfold stripStep
  rw [hp]
  simp only [if_neg hne]

theorem stripStep_push (sname : List Nat) (s : StripState) (p sub : MParser)
    (c : Nat)
    (hp : parse s.parser s.buffer s.eofile
        = .ok (p, .parsed c (.moduleCodeSectionEntry sub))) :
    stripStep sname s = .cont
      { s with
        parser := sub
        pstack := p :: s.pstack
        buffer := s.buffer.drop c
        trace := s.trace
          ++ [Evt.mk s.buffer s.pstack.length c (.moduleCodeSectionEntry sub)] } := by
  unfold stripStep
  rw [hp]

theorem stripStep_end_pop (sname : List Nat) (s : StripState) (p pp : MParser)
    (rest : List MParser) (c : Nat)
    (hstack : s.pstack = pp :: rest)
    (hp : parse s.parser s.buffer s.eofile = .ok (p, .parsed c .end_)) :
    stripStep sname s = .cont
      { s with
        parser := pp
        pstack := rest
        buffer := s.buffer.drop c
        trace := s.trace ++ [Evt.mk s.buffer s.pstack.length c .end_] } := by
  unfold stripStep
  rw [hp]
  simp only [hstack]

theorem stripStep_end_return (sname : List Nat) (s : StripState) (p : MParser)
    (c : Nat) (hstack : s.pstack = [])
    (hp : parse s.parser s.buffer s.eofile = .ok (p, .parsed c .end_)) :
    stripStep sname s = .ok
      { s with
        parser := p
        trace := s.trace ++ [Evt.mk s.buffer s.pstack.length c .end_] } := by
  unfold stripStep
  rw [hp]
  simp only [hstack]

theorem stripStep_needMore (sname : List Nat) (s : StripState)
    (p : MParser) (hint : Nat)
    (hp : parse s.parser s.buffer s.eofile = .ok (p, .needMoreData hint))
    (hne : s.eofile = false) :
    stripStep sname s = .cont
      { s with
        parser := p
        buffer := (s.buffer ++ (s.input.take (min hint s.input.length)
            ++ List.replicate (hint - min hint s.input.length) 0)).take
            (s.buffer.length + min hint s.input.length)
        input := s.input.drop (min hint s.input.length)
        eofile := min hint s.input.length == 0 } := by
  unfold stripStep
  rw [hp, hne]
  rfl

/-- C4: when a parse attempt reports insufficient data with a hint, the
driver appends exactly `hint` zero bytes, reads `n = min hint remaining`
input bytes into that region, truncates the buffer to the previous length
plus `n` — so the new buffer is the old buffer (none of it consumed)
followed by exactly the bytes read — sets the end-of-input flag iff zero
bytes were read, and retries with everything else unchanged. -/
theorem claim4_refill_retry (sname : List Nat) (s : StripState)
    (p : MParser) (hint : Nat)
    (hp : parse s.parser s.buffer s.eofile = .ok (p, .needMoreData hint))
    (hne : s.eofile = false) :
    stripStep sname s = .cont
      { s with
        parser := p
        buffer := (s.buffer ++ (s.input.take (min hint s.input.length)
            ++ List.replicate (hint - min hint s.input.length) 0)).take
            (s.buffer.length + min hint s.input.length)
        input := s.input.drop (min hint s.input.length)
        eofile := min hint s.input.length == 0 } ∧
    (s.buffer ++ (s.input.take (min hint s.input.length)
        ++ List.replicate (hint - min hint s.input.length) 0)).take
        (s.buffer.length + min hint s.input.length)
      = s.buffer ++ s.input.take (min hint s.input.length) ∧
    min hint s.input.length ≤ hint := by
  refine ⟨stripStep_needMore sname s p hint hp hne, ?_, by omega⟩
  exact take_append_exact _ _ _ _ (by simp)

/-- C4 witness: the first step on a fresh pass refills the empty buffer
with the 8 requested header bytes. -/
theorem claim4_refill_retry_witness :
    stripStep [1] (initState headerBytes) = .cont
      { initState headerBytes with
        parser := .header none
        buffer := (([] : List Nat) ++ (headerBytes.take (min 8 headerBytes.length)
            ++ List.replicate (8 - min 8 headerBytes.length) 0)).take
            (([] : List Nat).length + min 8 headerBytes.length)
        input := headerBytes.drop (min 8 headerBytes.length)
        eofile := min 8 headerBytes.length == 0 } ∧
    (([] : List Nat) ++ (headerBytes.take (min 8 headerBytes.length)
        ++ List.replicate (8 - min 8 headerBytes.length) 0)).take
        (([] : List Nat).length + min 8 headerBytes.length)
      = ([] : List Nat) ++ headerBytes.take (min 8 headerBytes.length) ∧
    min 8 headerBytes.length ≤ 8 :=
  claim4_refill_retry [1] (initState headerBytes) (.header none) 8 rfl rfl

/-- C5: after every successfully parsed event exactly the consumed byte
count is drained from the front of the staging buffer before the next
parse attempt (the consumed count never exceeds the buffer), and the
event that terminates the pass consumes zero bytes, so its (empty)
consumed span is trivially drained as well. -/
theorem claim5_exact_drain (sname : List Nat) (s : StripState)
    (p : MParser) (c : Nat) (pl : Payload)
    (hp : parse s.parser s.buffer s.eofile = .ok (p, .parsed c pl)) :
    c ≤ s.buffer.length ∧
    (∀ s', stripStep sname s = .cont s' → s'.buffer = s.buffer.drop c) ∧
    (∀ st, stripStep sname s = .ok st → c = 0) := by
  obtain ⟨hle, hend, hpush⟩ := parse_parsed_facts _ _ _ _ _ _ hp
  refine ⟨hle, ?_, ?_⟩
  · intro s' hstep
    cases pl with
    | version =>
      rw [stripStep_version sname s p c hp] at hstep
      cases hstep; rfl
    | other =>
      rw [stripStep_other sname s p c hp] at hstep
      cases hstep; rfl
    | customSection name =>
      by_cases hn : name = sname
      · subst name
        rw [stripStep_custom_match sname s p c hp] at hstep
        cases hstep; rfl
      · rw [stripStep_custom_other sname name s p c hn hp] at hstep
        cases hstep; rfl
    | moduleCodeSectionEntry sub =>
      rw [stripStep_push sname s p sub c hp] at hstep
      cases hstep; rfl
    | end_ =>
      cases hstack : s.pstack with
      | nil =>
        rw [stripStep_end_return sname s p c hstack hp] at hstep
        cases hstep
      | cons pp rest =>
        rw [stripStep_end_pop sname s p pp rest c hstack hp] at hstep
        cases hstep; rfl
  · intro st hstep
    cases pl with
    | version =>
      rw [stripStep_version sname s p c hp] at hstep
      cases hstep
    | other =>
      rw [stripStep_other sname s p c hp] at hstep
      cases hstep
    | customSection name =>
      by_cases hn : name = sname
      · subst name
        rw [stripStep_custom_match sname s p c hp] at hstep
        cases hstep
      · rw [stripStep_custom_other sname name s p c hn hp] at hstep
        cases hstep
    | moduleCodeSectionEntry sub =>
      rw [stripStep_push sname s p sub c hp] at hstep
      cases hstep
    | end_ =>
      cases hstack : s.pstack with
      | nil => exact hend rfl
      | cons pp rest =>
        rw [stripStep_end_pop sname s p pp rest c hstack hp] at hstep
        cases hstep

/-- C5 witness: a buffer holding exactly the header is fully drained by
the header event. -/
theorem claim5_exact_drain_witness :
    (8 ≤ (StripState.mk headerBytes (.header none) false [] [] [] []).buffer.length ∧
    (∀ s', stripStep [1] (StripState.mk headerBytes (.header none) false [] [] [] [])
        = .cont s' →
      s'.buffer = (StripState.mk headerBytes (.header none) false [] [] [] []).buffer.drop 8) ∧
    (∀ st, stripStep [1] (StripState.mk headerBytes (.header none) false [] [] [] [])
        = .ok st → 8 = 0)) :=
  claim5_exact_drain [1] _ (.body none) 8 .version rfl

/-- C6: a nested-entry event pushes the post-parse outer context and
switches to the sub-parser; an end-of-structure event with a non-empty
stack pops exactly one context and resumes it; with an empty stack it
terminates the pass returning the output; termination happens only on an
end-of-structure event with empty stack; and once the step returns, the
run yields that result with no further events. -/
theorem claim6_nesting_stack (sname : List Nat) (s : StripState)
    (p : MParser) (c : Nat) (pl : Payload)
    (hp : parse s.parser s.buffer s.eofile = .ok (p, .parsed c pl)) :
    (∀ sub, pl = .moduleCodeSectionEntry sub →
      stripStep sname s = .cont
        { s with
          parser := sub
          pstack := p :: s.pstack
          buffer := s.buffer.drop c
          trace := s.trace ++ [Evt.mk s.buffer s.pstack.length c pl] }) ∧
    (∀ pp rest, pl = .end_ → s.pstack = pp :: rest →
      stripStep sname s = .cont
        { s with
          parser := pp
          pstack := rest
          buffer := s.buffer.drop c
          trace := s.trace ++ [Evt.mk s.buffer s.pstack.length c pl] }) ∧
    (pl = .end_ → s.pstack = [] →
      stripStep sname s = .ok
        { s with
          parser := p
          trace := s.trace ++ [Evt.mk s.buffer s.pstack.length c pl] }) ∧
    (∀ st, stripStep sname s = .ok st → pl = .end_ ∧ s.pstack = []) ∧
    (∀ st fuel, stripStep sname s = .ok st →
      stripRun sname (fuel + 1) s = .ok st) := by
  refine ⟨?_, ?_, ?_, ?_, ?_⟩
  · intro sub hpl
    subst hpl
    exact stripStep_push sname s p sub c hp
  · intro pp rest hpl hstack
    subst hpl
    exact stripStep_end_pop sname s p pp rest c hstack hp
  · intro hpl hstack
    subst hpl
    exact stripStep_end_return sname s p c hstack hp
  · intro st hstep
    cases pl with
    | version =>
      rw [stripStep_version sname s p c hp] at hstep
      cases hstep
    | other =>
      rw [stripStep_other sname s p c hp] at hstep
      cases hstep
    | customSection name =>
      by_cases hn : name = sname
      · subst name
        rw [stripStep_custom_match sname s p c hp] at hstep
        cases hstep
      · rw [stripStep_custom_other sname name s p c hn hp] at hstep
        cases hstep
    | moduleCodeSectionEntry sub =>
      rw [stripStep_push sname s p sub c hp] at hstep
      cases hstep
    | end_ =>
      cases hstack : s.pstack with
      | nil => exact ⟨rfl, by simp⟩
      | cons pp rest =>
        rw [stripStep_end_pop sname s p pp rest c hstack hp] at hstep
        cases hstep
  · intro st fuel hstep
    unfold stripRun
    rw [hstep]

/-- C6 witness: the top-level end-of-structure event with an empty stack
terminates the pass. -/
theorem claim6_nesting_stack_witness :
    (Payload.end_ = .end_ → (StripState.mk [] (.body none) true [] [] [] []).pstack = [] →
      stripStep [1] (StripState.mk [] (.body none) true [] [] [] []) = .ok
        { StripState.mk [] (.body none) true [] [] [] [] with
          parser := .done
          trace := [] ++ [Evt.mk [] ([] : List MParser).length 0 .end_] }) ∧
    (∀ st, stripStep [1] (StripState.mk [] (.body none) true [] [] [] []) = .ok st →
      Payload.end_ = .end_ ∧ (StripState.mk [] (.body none) true [] [] [] []).pstack = []) :=
  let h := claim6_nesting_stack [1] (StripState.mk [] (.body none) true [] [] [] [])
    .done 0 .end_ rfl
  ⟨fun _ _ => h.2.2.1 rfl rfl, h.2.2.2.1⟩

/-! ## No panic, and errors are terminal (towards C8) -/

theorem stripStep_err (sname : List Nat) (s : StripState) (e : PErr)
    (hp : parse s.parser s.buffer s.eofile = .error e) :
    stripStep sname s = .err e := by
  unfold stripStep
  rw [hp]

theorem stripStep_no_panic (sname : List Nat) (s : StripState) :
    stripStep sname s ≠ .panic := by
  intro h
  cases hp : parse s.parser s.buffer s.eofile with
  | error e => rw [stripStep_err sname s e hp] at h; cases h
  | ok pc =>
    obtain ⟨p, ch⟩ := pc
    cases ch with
    | needMoreData hint =>
      by_cases he : s.eofile = true
      · exact parse_eof_no_needMoreData s.parser p s.buffer hint (he ▸ hp)
      · rw [stripStep_needMore sname s p hint hp (by simpa using he)] at h
        cases h
    | parsed c pl =>
      cases pl with
      | version => rw [stripStep_version sname s p c hp] at h; cases h
      | other => rw [stripStep_other sname s p c hp] at h; cases h
      | customSection name =>
        by_cases hn : name = sname
        · subst name
          rw [stripStep_custom_match sname s p c hp] at h; cases h
        · rw [stripStep_custom_other sname name s p c hn hp] at h; cases h
      | moduleCodeSectionEntry sub =>
        rw [stripStep_push sname s p sub c hp] at h; cases h
      | end_ =>
        cases hstack : s.pstack with
        | nil => rw [stripStep_end_return sname s p c hstack hp] at h; cases h
        | cons pp rest =>
          rw [stripStep_end_pop sname s p pp rest c hstack hp] at h; cases h

theorem stripRun_no_panic (sname : List Nat) (fuel : Nat) (s : StripState) :
    stripRun sname fuel s ≠ .panic := by
  induction fuel generalizing s with
  | zero => intro h; cases h
  | succ n ih =>
    intro h
    unfold stripRun at h
    cases hs : stripStep sname s with
    | cont s' => rw [hs] at h; exact ih s' h
    | ok s' => rw [hs] at h; cases h
    | err e => rw [hs] at h; cases h
    | panic => exact stripStep_no_panic sname s hs

/-- Exhaustive case analysis of one loop iteration: every possible step
is one of the nine shapes below. -/
theorem stripStep_elim (sname : List Nat) (s : StripState)
    (Q : StepRes → Prop)
    (herr : ∀ e, parse s.parser s.buffer s.eofile = .error e → Q (.err e))
    (hneed : ∀ p hint,
      parse s.parser s.buffer s.eofile = .ok (p, .needMoreData hint) →
      s.eofile = false →
      Q (.cont { s with
        parser := p
        buffer := (s.buffer ++ (s.input.take (min hint s.input.length)
            ++ List.replicate (hint - min hint s.input.length) 0)).take
            (s.buffer.length + min hint s.input.length)
        input := s.input.drop (min hint s.input.length)
        eofile := min hint s.input.length == 0 }))
    (hver : ∀ p c,
      parse s.parser s.buffer s.eofile = .ok (p, .parsed c .version) →
      Q (.cont { s with
        parser := p
        output := s.output ++ s.buffer.take c
        buffer := s.buffer.drop c
        trace := s.trace ++ [Evt.mk s.buffer s.pstack.length c .version] }))
    (hoth : ∀ p c,
      parse s.parser s.buffer s.eofile = .ok (p, .parsed c .other) →
      Q (.cont { s with
        parser := p
        output := s.output ++ s.buffer.take c
        buffer := s.buffer.drop c
        trace := s.trace ++ [Evt.mk s.buffer s.pstack.length c .other] }))
    (hcm : ∀ p c,
      parse s.parser s.buffer s.eofile
          = .ok (p, .parsed c (.customSection sname)) →
      Q (.cont { s with
        parser := p
        buffer := s.buffer.drop c
        trace := s.trace
          ++ [Evt.mk s.buffer s.pstack.length c (.customSection sname)] }))
    (hco : ∀ p c name, name ≠ sname →
      parse s.parser s.buffer s.eofile
          = .ok (p, .parsed c (.customSection name)) →
      Q (.cont { s with
        parser := p
        output := s.output ++ s.buffer.take c
        buffer := s.buffer.drop c
        trace := s.trace
          ++ [Evt.mk s.buffer s.pstack.length c (.customSection name)] }))
    (hpush : ∀ p sub c,
      parse s.parser s.buffer s.eofile
          = .ok (p, .parsed c (.moduleCodeSectionEntry sub)) →
      Q (.cont { s with
        parser := sub
        pstack := p :: s.pstack
        buffer := s.buffer.drop c
        trace := s.trace
          ++ [Evt.mk s.buffer s.pstack.length c (.moduleCodeSectionEntry sub)] }))
    (hpop : ∀ p pp rest c, s.pstack = pp :: rest →
      parse s.parser s.buffer s.eofile = .ok (p, .parsed c .end_) →
      Q (.cont { s with
        parser := pp
        pstack := rest
        buffer := s.buffer.drop c
        trace := s.trace ++ [Evt.mk s.buffer s.pstack.length c .end_] }))
    (hret : ∀ p c, s.pstack = [] →
      parse s.parser s.buffer s.eofile = .ok (p, .parsed c .end_) →
      Q (.ok { s with
        parser := p
        trace := s.trace ++ [Evt.mk s.buffer s.pstack.length c .end_] })) :
    Q (stripStep sname s) := by
  cases hp : parse s.parser s.buffer s.eofile with
  | error e => rw [stripStep_err sname s e hp]; exact herr e hp
  | ok pc =>
    obtain ⟨p, ch⟩ := pc
    cases ch with
    | needMoreData hint =>
      by_cases he : s.eofile = true
      · exact absurd (he ▸ hp) (parse_eof_no_needMoreData s.parser p s.buffer hint)
      · have he' : s.eofile = false := by simpa using he
        rw [stripStep_needMore sname s p hint hp he']
        exact hneed p hint hp he'
    | parsed c pl =>
      cases pl with
      | version => rw [stripStep_version sname s p c hp]; exact hver p c hp
      | other => rw [stripStep_other sname s p c hp]; exact hoth p c hp
      | customSection name =>
        by_cases hn : name = sname
        · subst name
          rw [stripStep_custom_match sname s p c hp]
          exact hcm p c hp
        · rw [stripStep_custom_other sname name s p c hn hp]
          exact hco p c name hn hp
      | moduleCodeSectionEntry sub =>
        rw [stripStep_push sname s p sub c hp]
        exact hpush p sub c hp
      | end_ =>
        cases hstack : s.pstack with
        | nil =>
          rw [stripStep_end_return sname s p c hstack hp]
          exact hret p c hstack hp
        | cons pp rest =>
          rw [stripStep_end_pop sname s p pp rest c hstack hp]
          exact hpop p pp rest c hstack hp

/-- A parse error terminates the run at once: no retry is attempted. -/
theorem stripRun_err_terminal (sname : List Nat) (fuel : Nat)
    (s : StripState) (e : PErr)
    (hp : parse s.parser s.buffer s.eofile = .error e) :
    stripRun sname (fuel + 1) s = .err e := by
  unfold stripRun stripStep
  rw [hp]

/-! ## Theorems: the forward-or-drop filter policy (C1) -/

/-- Is this a custom-section event whose name equals the target name? -/
def isTargetCustom (sname : List Nat) (pl : Payload) : Bool :=
  match pl with
  | .customSection name => name = sname
  | _ => false

/-- The bytes an event contributes to the output: nothing for a custom
section with the target name, its full consumed span otherwise. -/
def keepBytes (sname : List Nat) (e : Evt) : List Nat :=
  if isTargetCustom sname e.payload then [] else e.buf.take e.consumed

/-- Invariant transfer along a run ending in `Ok`. -/
theorem stripRun_ok_invariant (sname : List Nat) (P : StripState → Prop)
    (hcont : ∀ s s', stripStep sname s = .cont s' → P s → P s')
    (hok : ∀ s st, stripStep sname s = .ok st → P s → P st) :
    ∀ fuel s st, stripRun sname fuel s = .ok st → P s → P st := by
  intro fuel
  induction fuel with
  | zero => intro s st h; cases h
  | succ n ih =>
    intro s st h hP
    unfold stripRun at h
    cases hs : stripStep sname s with
    | cont s' => rw [hs] at h; exact ih s' st h (hcont s s' hs hP)
    | ok s' => rw [hs] at h; cases h; exact hok s _ hs hP
    | err e => rw [hs] at h; cases h
    | panic => rw [hs] at h; cases h

theorem output_invariant_step (sname : List Nat) (s : StripState) :
    (∀ s', stripStep sname s = .cont s' →
      s.output = (s.trace.map (keepBytes sname)).flatten →
      s'.output = (s'.trace.map (keepBytes sname)).flatten) ∧
    (∀ st, stripStep sname s = .ok st →
      s.output = (s.trace.map (keepBytes sname)).flatten →
      st.output = (st.trace.map (keepBytes sname)).flatten) := by
  refine stripStep_elim sname s
    (fun r =>
      (∀ s', r = .cont s' →
        s.output = (s.trace.map (keepBytes sname)).flatten →
        s'.output = (s'.trace.map (keepBytes sname)).flatten) ∧
      (∀ st, r = .ok st →
        s.output = (s.trace.map (keepBytes sname)).flatten →
        st.output = (st.trace.map (keepBytes sname)).flatten))
    ?_ ?_ ?_ ?_ ?_ ?_ ?_ ?_ ?_
  · intro e _
    exact And.intro (fun s' h => nomatch h) (fun st h => nomatch h)
  · intro p hint _ _
    refine And.intro (fun s' h hP => ?_) (fun st h => nomatch h)
    cases h
    exact hP
  · intro p c hp
    refine And.intro (fun s' h hP => ?_) (fun st h => nomatch h)
    cases h
    simp [keepBytes, isTargetCustom, hP]
  · intro p c hp
    refine And.intro (fun s' h hP => ?_) (fun st h => nomatch h)
    cases h
    simp [keepBytes, isTargetCustom, hP]
  · intro p c hp
    refine And.intro (fun s' h hP => ?_) (fun st h => nomatch h)
    cases h
    simp [keepBytes, isTargetCustom, hP]
  · intro p c name hn hp
    refine And.intro (fun s' h hP => ?_) (fun st h => nomatch h)
    cases h
    simp [keepBytes, isTargetCustom, hn, hP]
  · intro p sub c hp
    refine And.intro (fun s' h hP => ?_) (fun st h => nomatch h)
    cases h
    have hz := (parse_parsed_facts _ _ _ _ _ _ hp).2.2 sub rfl
    subst hz
    simp [keepBytes, isTargetCustom, hP]
  · intro p pp rest c _ hp
    refine And.intro (fun s' h hP => ?_) (fun st h => nomatch h)
    cases h
    have hz := (parse_parsed_facts _ _ _ _ _ _ hp).2.1 rfl
    subst hz
    simp [keepBytes, isTargetCustom, hP]
  · intro p c _ hp
    refine And.intro (fun s' h => nomatch h) (fun st h hP => ?_)
    cases h
    have hz := (parse_parsed_facts _ _ _ _ _ _ hp).2.1 rfl
    subst hz
    simp [keepBytes, isTargetCustom, hP]

/-- C1: over a whole strip pass the output is exactly the concatenation,
in input order, of the consumed byte spans of all events that are not
custom sections named the target — i.e. a consumed span is dropped iff
its event is a custom section whose name equals the configured name
(all of them, when several match), and every other span is forwarded
byte-for-byte unmodified. -/
theorem claim1_filter_policy (sname input : List Nat) (fuel : Nat)
    (st : StripState) (h : stripSection sname input fuel = .ok st) :
    st.output = (st.trace.map (keepBytes sname)).flatten := by
  refine stripRun_ok_invariant sname
    (fun s => s.output = (s.trace.map (keepBytes sname)).flatten)
    (fun s s' hs hP => (output_invariant_step sname s).1 s' hs hP)
    (fun s stq hs hP => (output_invariant_step sname s).2 stq hs hP)
    fuel (initState input) st h rfl

/-- C1 witness: stripping `"foo"` from a module holding two sections both
named `"foo"` forwards only the header and drops both matching spans. -/
theorem claim1_filter_policy_witness :
    (StripState.mk [] .done true []
        [] [0, 97, 115, 109, 1, 0, 0, 0]
        [Evt.mk [0, 97, 115, 109, 1, 0, 0, 0] 0 8 .version,
         Evt.mk [0, 5, 3, 102, 111, 111, 1] 0 7 (.customSection [102, 111, 111]),
         Evt.mk [0, 5, 3, 102, 111, 111, 2] 0 7 (.customSection [102, 111, 111]),
         Evt.mk [] 0 0 .end_]).output
      = ((StripState.mk [] .done true []
        [] [0, 97, 115, 109, 1, 0, 0, 0]
        [Evt.mk [0, 97, 115, 109, 1, 0, 0, 0] 0 8 .version,
         Evt.mk [0, 5, 3, 102, 111, 111, 1] 0 7 (.customSection [102, 111, 111]),
         Evt.mk [0, 5, 3, 102, 111, 111, 2] 0 7 (.customSection [102, 111, 111]),
         Evt.mk [] 0 0 .end_]).trace.map (keepBytes [102, 111, 111])).flatten :=
  claim1_filter_policy [102, 111, 111]
    [0, 97, 115, 109, 1, 0, 0, 0, 0, 5, 3, 102, 111, 111, 1, 0, 5, 3, 102, 111, 111, 2]
    40 _ (by decide)

/-! ## Run machinery: step counting and reachability -/

/-- Iterate the loop body a fixed number of steps (staying `cont` when
the budget of steps runs out before the loop finishes). -/
def stepN (sname : List Nat) : Nat → StripState → StepRes
  | 0, s => .cont s
  | n + 1, s =>
    match stripStep sname s with
    | .cont s' => stepN sname n s'
    | r => r

theorem stepN_succ (sname : List Nat) (n : Nat) (s : StripState) :
    stepN sname (n + 1) s =
      match stripStep sname s with
      | .cont s' => stepN sname n s'
      | r => r := rfl

theorem stripRun_succ (sname : List Nat) (f : Nat) (s : StripState) :
    stripRun sname (f + 1) s =
      match stripStep sname s with
      | .cont s' => stripRun sname f s'
      | .ok s' => .ok s'
      | .err e => .err e
      | .panic => .panic := rfl

theorem stepN_cont_add (sname : List Nat) (m n : Nat) (s s' : StripState)
    (h : stepN sname m s = .cont s') :
    stepN sname (m + n) s = stepN sname n s' := by
  induction m generalizing s with
  | zero =>
    cases h
    rw [Nat.zero_add]
  | succ m ih =>
    rw [Nat.succ_add]
    rw [stepN_succ] at h
    rw [stepN_succ]
    cases hs : stripStep sname s with
    | cont s1 => rw [hs] at h; exact ih s1 h
    | ok s1 => rw [hs] at h; cases h
    | err e => rw [hs] at h; cases h
    | panic => rw [hs] at h; cases h

theorem stripRun_of_stepN_cont (sname : List Nat) (n f : Nat)
    (s s' : StripState) (h : stepN sname n s = .cont s') :
    stripRun sname (n + f) s = stripRun sname f s' := by
  induction n generalizing s with
  | zero => cases h; rw [Nat.zero_add]
  | succ m ih =>
    rw [Nat.succ_add]
    rw [stepN_succ] at h
    rw [stripRun_succ]
    cases hs : stripStep sname s with
    | cont s1 => rw [hs] at h; exact ih s1 h
    | ok s1 => rw [hs] at h; cases h
    | err e => rw [hs] at h; cases h
    | panic => rw [hs] at h; cases h

theorem stripRun_of_stepN_ok (sname : List Nat) (n f : Nat)
    (s : StripState) (st : StripState) (h : stepN sname n s = .ok st) :
    stripRun sname (n + f) s = .ok st := by
  induction n generalizing s with
  | zero => cases h
  | succ m ih =>
    rw [Nat.succ_add]
    rw [stepN_succ] at h
    rw [stripRun_succ]
    cases hs : stripStep sname s with
    | cont s1 => rw [hs] at h; exact ih s1 h
    | ok s1 => rw [hs] at h; cases h; rfl
    | err e => rw [hs] at h; cases h
    | panic => rw [hs] at h; cases h

/-- `s` reaches `s'` after finitely many loop iterations. -/
def Reaches (sname : List Nat) (s s' : StripState) : Prop :=
  ∃ n, stepN sname n s = .cont s'

theorem Reaches.refl (sname : List Nat) (s : StripState) :
    Reaches sname s s := ⟨0, rfl⟩

theorem Reaches.trans {sname : List Nat} {s t u : StripState}
    (h1 : Reaches sname s t) (h2 : Reaches sname t u) :
    Reaches sname s u := by
  obtain ⟨m, hm⟩ := h1
  obtain ⟨n, hn⟩ := h2
  exact ⟨m + n, by rw [stepN_cont_add sname m n s t hm]; exact hn⟩

theorem Reaches.single {sname : List Nat} {s t : StripState}
    (h : stripStep sname s = .cont t) : Reaches sname s t := by
  refine ⟨1, ?_⟩
  rw [stepN_succ, h]
  rfl

/-- From a reachable state that finishes with `Ok`, the whole run
finishes with `Ok` (for a sufficiently large fuel). -/
theorem run_ok_of_reaches (sname : List Nat) (s s' st : StripState)
    (h1 : Reaches sname s s') (h2 : stripStep sname s' = .ok st) :
    ∃ fuel, stripRun sname fuel s = .ok st := by
  obtain ⟨n, hn⟩ := h1
  refine ⟨n + 1, ?_⟩
  rw [stripRun_of_stepN_cont sname n 1 s s' hn]
  unfold stripRun
  rw [h2]

/-! ## Stability of successful parses under buffer extension -/

theorem decodeVarint_mono (l ext : List Nat) (v k : Nat)
    (h : decodeVarint l = some (v, k)) :
    decodeVarint (l ++ ext) = some (v, k) := by
  induction l generalizing v k with
  | nil => cases h
  | cons b rest ih =>
    simp only [decodeVarint, List.cons_append, List.append_eq] at h ⊢
    split at h
    · cases h
      rw [if_pos (by assumption)]
    · rw [if_neg (by assumption)]
      split at h
      · next v' k' heq =>
        cases h
        rw [ih _ _ heq]
      · cases h

theorem drop_take_confined (l ext : List Nat) (a b : Nat)
    (h : a + b ≤ l.length) :
    ((l ++ ext).drop a).take b = (l.drop a).take b := by
  rw [List.drop_append_of_le_length (by omega),
    List.take_append_of_le_length (by simp; omega)]

/-- A successful parse is stable under extending the buffer and under any
end-of-input flag: the same event with the same consumed count results. -/
theorem parse_stable (p p' : MParser) (buf ext : List Nat) (c : Nat)
    (pl : Payload) (e' : Bool)
    (h : parse p buf false = .ok (p', .parsed c pl)) :
    parse p (buf ++ ext) e' = .ok (p', .parsed c pl) := by
  cases p
  case header budget =>
    simp only [parse] at h ⊢
    by_cases hb : budgetAtLeast budget 8 = true
    case neg => rw [if_neg hb] at h; cases h
    case pos =>
    rw [if_pos hb] at h ⊢
    by_cases hlt : buf.length < 8
    case pos =>
      rw [if_pos hlt] at h
      rw [if_neg (by simp)] at h
      cases h
    case neg =>
      rw [if_neg hlt] at h
      rw [if_neg (by simp only [List.length_append]; omega)]
      by_cases hhdr : buf.take 8 = headerBytes
      case pos =>
        rw [if_pos hhdr] at h
        cases h
        rw [if_pos (by rw [List.take_append_of_le_length (by omega)]; exact hhdr)]
      case neg => rw [if_neg hhdr] at h; cases h
  case body budget =>
    simp only [parse] at h ⊢
    by_cases hz : budget = some 0
    case pos =>
      rw [if_pos hz] at h ⊢
      cases h
      rfl
    case neg =>
    rw [if_neg hz] at h ⊢
    cases buf with
    | nil =>
      repeat' split at h
      all_goals simp_all
    | cons id rest =>
      simp only [List.cons_append] at h ⊢
      cases hdv : decodeVarint rest with
      | none =>
        simp only [hdv] at h
        rw [if_neg (by simp)] at h
        cases h
      | some lv =>
        obtain ⟨len, vl⟩ := lv
        simp only [hdv] at h
        simp only [decodeVarint_mono rest ext len vl hdv]
        by_cases hbud : budgetAtLeast budget (1 + vl + len) = true
        case neg => rw [if_neg hbud] at h; cases h
        case pos =>
        rw [if_pos hbud] at h ⊢
        by_cases hcust : id = customId
        case pos =>
          rw [if_pos hcust] at h ⊢
          by_cases hlt : (id :: rest).length < 1 + vl + len
          case pos =>
            rw [if_pos hlt] at h
            rw [if_neg (by simp)] at h
            cases h
          case neg =>
            rw [if_neg hlt] at h
            rw [if_neg (by simp only [List.length_cons, List.length_append] at hlt ⊢; omega)]
            have hconf : ((id :: (rest ++ ext)).drop (1 + vl)).take len
                = ((id :: rest).drop (1 + vl)).take len := by
              have := drop_take_confined (id :: rest) ext (1 + vl) len
                (by simp only [List.length_cons] at hlt ⊢; omega)
              simpa using this
            rw [hconf]
            cases hdv2 : decodeVarint (((id :: rest).drop (1 + vl)).take len) with
            | none => simp only [hdv2] at h; cases h
            | some nn =>
              obtain ⟨nlen, nl⟩ := nn
              simp only [hdv2] at h
              simp only [hdv2]
              by_cases hfit : nl + nlen ≤ len
              case pos =>
                rw [if_pos hfit] at h
                cases h
                rw [if_pos hfit]
              case neg => rw [if_neg hfit] at h; cases h
        case neg =>
          rw [if_neg hcust] at h ⊢
          by_cases hnest : id = nestedId
          case pos =>
            rw [if_pos hnest] at h ⊢
            cases h
            rfl
          case neg =>
            rw [if_neg hnest] at h ⊢
            by_cases hlt : (id :: rest).length < 1 + vl + len
            case pos =>
              rw [if_pos hlt] at h
              rw [if_neg (by simp)] at h
              cases h
            case neg =>
              rw [if_neg hlt] at h
              cases h
              rw [if_neg (by simp only [List.length_cons, List.length_append] at hlt ⊢; omega)]
  case entries rem after =>
    simp only [parse] at h ⊢
    cases hdv : decodeVarint buf with
    | none =>
      simp only [hdv] at h
      rw [if_neg (by simp)] at h
      cases h
    | some sv =>
      obtain ⟨size, vl⟩ := sv
      simp only [hdv] at h
      simp only [decodeVarint_mono buf ext size vl hdv]
      by_cases hfit : vl + size ≤ rem
      case pos =>
        rw [if_pos hfit] at h
        cases h
        rw [if_pos hfit]
      case neg => rw [if_neg hfit] at h; cases h
  case entryPending size rem after =>
    simp only [parse] at h ⊢
    cases h
    rfl
  case done => cases h

/-- A parse failure with more data still to come is definitive: it is
stable under extending the buffer and any end-of-input flag. -/
theorem parse_error_stable (p : MParser) (buf ext : List Nat) (e : PErr)
    (e' : Bool) (h : parse p buf false = .error e) :
    parse p (buf ++ ext) e' = .error e := by
  cases p
  case header budget =>
    simp only [parse] at h ⊢
    by_cases hb : budgetAtLeast budget 8 = true
    case neg => rw [if_neg hb] at h ⊢
    case pos =>
    rw [if_pos hb] at h ⊢
    by_cases hlt : buf.length < 8
    case pos =>
      rw [if_pos hlt] at h
      rw [if_neg (by simp)] at h
      cases h
    case neg =>
      rw [if_neg hlt] at h
      rw [if_neg (by simp only [List.length_append]; omega)]
      by_cases hhdr : buf.take 8 = headerBytes
      case pos => rw [if_pos hhdr] at h; cases h
      case neg =>
        rw [if_neg hhdr] at h
        rw [if_neg (by rw [List.take_append_of_le_length (by omega)]; exact hhdr)]
  case body budget =>
    simp only [parse] at h ⊢
    by_cases hz : budget = some 0
    case pos => rw [if_pos hz] at h; cases h
    case neg =>
    rw [if_neg hz] at h ⊢
    cases buf with
    | nil =>
      repeat' split at h
      all_goals simp_all
    | cons id rest =>
      simp only [List.cons_append] at h ⊢
      cases hdv : decodeVarint rest with
      | none =>
        simp only [hdv] at h
        rw [if_neg (by simp)] at h
        cases h
      | some lv =>
        obtain ⟨len, vl⟩ := lv
        simp only [hdv] at h
        simp only [decodeVarint_mono rest ext len vl hdv]
        by_cases hbud : budgetAtLeast budget (1 + vl + len) = true
        case neg => rw [if_neg hbud] at h ⊢
        case pos =>
        rw [if_pos hbud] at h ⊢
        by_cases hcust : id = customId
        case pos =>
          rw [if_pos hcust] at h ⊢
          by_cases hlt : (id :: rest).length < 1 + vl + len
          case pos =>
            rw [if_pos hlt] at h
            rw [if_neg (by simp)] at h
            cases h
          case neg =>
            rw [if_neg hlt] at h
            rw [if_neg (by simp only [List.length_cons, List.length_append] at hlt ⊢; omega)]
            have hconf : ((id :: (rest ++ ext)).drop (1 + vl)).take len
                = ((id :: rest).drop (1 + vl)).take len := by
              have := drop_take_confined (id :: rest) ext (1 + vl) len
                (by simp only [List.length_cons] at hlt ⊢; omega)
              simpa using this
            rw [hconf]
            cases hdv2 : decodeVarint (((id :: rest).drop (1 + vl)).take len) with
            | none =>
              simp only [hdv2] at h ⊢
            | some nn =>
              obtain ⟨nlen, nl⟩ := nn
              simp only [hdv2] at h ⊢
              by_cases hfit : nl + nlen ≤ len
              case pos => rw [if_pos hfit] at h; cases h
              case neg => rw [if_neg hfit] at h ⊢
        case neg =>
          rw [if_neg hcust] at h ⊢
          by_cases hnest : id = nestedId
          case pos => rw [if_pos hnest] at h; cases h
          case neg =>
            rw [if_neg hnest] at h ⊢
            by_cases hlt : (id :: rest).length < 1 + vl + len
            case pos =>
              rw [if_pos hlt] at h
              rw [if_neg (by simp)] at h
              cases h
            case neg =>
              rw [if_neg hlt] at h
              cases h
  case entries rem after =>
    simp only [parse] at h ⊢
    cases hdv : decodeVarint buf with
    | none =>
      simp only [hdv] at h
      rw [if_neg (by simp)] at h
      cases h
    | some sv =>
      obtain ⟨size, vl⟩ := sv
      simp only [hdv] at h
      simp only [decodeVarint_mono buf ext size vl hdv]
      by_cases hfit : vl + size ≤ rem
      case pos => rw [if_pos hfit] at h; cases h
      case neg => rw [if_neg hfit] at h ⊢
  case entryPending size rem after => cases h
  case done => exact h

/-- A data request leaves the parser context unchanged. -/
theorem parse_needMore_same (p p' : MParser) (buf : List Nat) (eof : Bool)
    (hint : Nat)
    (h : parse p buf eof = .ok (p', .needMoreData hint)) : p' = p := by
  cases p <;> simp only [parse] at h <;>
    (repeat' split at h) <;> (try cases h) <;> rfl

/-- The refill loop: if some prefix of the unread input completes the
current parse, the driver reads until the parse succeeds, without
consuming any buffered byte and without setting the end-of-input flag. -/
theorem fill_to_success (sname : List Nat) (N : Nat) :
    ∀ (s : StripState) (p : MParser) (c : Nat) (pl : Payload) (j : Nat),
      s.input.length ≤ N →
      s.eofile = false →
      j ≤ s.input.length →
      parse s.parser (s.buffer ++ s.input.take j) false = .ok (p, .parsed c pl) →
      ∃ k, k ≤ s.input.length ∧
        Reaches sname s
          { s with
            buffer := s.buffer ++ s.input.take k
            input := s.input.drop k
            eofile := false } ∧
        parse s.parser (s.buffer ++ s.input.take k) false
          = .ok (p, .parsed c pl) := by
  induction N with
  | zero =>
    intro s p c pl j hN hne hj hp
    obtain ⟨sbuf, spar, seo, sstk, sinp, sout, strc⟩ := s
    simp only at hN hne hj hp ⊢
    subst hne
    have hj0 : j = 0 := by omega
    subst hj0
    refine ⟨0, by omega, ?_, hp⟩
    simp only [List.take_zero, List.append_nil, List.drop_zero]
    exact Reaches.refl sname _
  | succ N ih =>
    intro s p c pl j hN hne hj hp
    obtain ⟨sbuf, spar, seo, sstk, sinp, sout, strc⟩ := s
    simp only at hN hne hj hp ⊢
    subst hne
    cases hp0 : parse spar sbuf false with
    | error e =>
      have := parse_error_stable spar sbuf (sinp.take j) e false hp0
      rw [hp] at this
      cases this
    | ok pc0 =>
      obtain ⟨p0, ch0⟩ := pc0
      cases ch0 with
      | parsed c0 pl0 =>
        have hstab := parse_stable spar p0 sbuf (sinp.take j) c0 pl0 false hp0
        have heq := hstab.symm.trans hp
        cases heq
        refine ⟨0, by omega, ?_, by simpa using hp0⟩
        simp only [List.take_zero, List.append_nil, List.drop_zero]
        exact Reaches.refl sname _
      | needMoreData hint =>
        have hpsame := parse_needMore_same spar p0 sbuf false hint hp0
        subst p0
        cases hinp : sinp with
        | nil =>
          subst hinp
          have hj0 : j = 0 := by simpa using hj
          subst hj0
          simp only [List.take_nil, List.append_nil] at hp
          rw [hp0] at hp
          cases hp
        | cons b binp =>
          subst hinp
          have hhint := parse_hint_pos spar spar sbuf false hint hp0
          have he : ((min hint (b :: binp).length) == 0) = false := by
            simp only [beq_eq_false_iff_ne, ne_eq]
            simp only [List.length_cons]
            omega
          have hstep :
              stripStep sname (StripState.mk sbuf spar false sstk (b :: binp) sout strc)
                = .cont (StripState.mk
                    (sbuf ++ (b :: binp).take (min hint (b :: binp).length))
                    spar false sstk
                    ((b :: binp).drop (min hint (b :: binp).length)) sout strc) := by
            have h1 := stripStep_needMore sname
              (StripState.mk sbuf spar false sstk (b :: binp) sout strc)
              spar hint hp0 rfl
            dsimp only at h1
            rw [take_append_exact sbuf _ _ _ (by rw [List.length_take]; omega), he] at h1
            exact h1
          by_cases hjn : j ≤ min hint (b :: binp).length
          · have hsucc : parse spar ((sbuf ++ (b :: binp).take (min hint (b :: binp).length)) ++
                ((b :: binp).drop (min hint (b :: binp).length)).take 0) false
                = .ok (p, .parsed c pl) := by
              have hx := parse_stable spar p (sbuf ++ (b :: binp).take j)
                (((b :: binp).take (min hint (b :: binp).length)).drop j) c pl false hp
              have hy : (sbuf ++ (b :: binp).take j)
                    ++ ((b :: binp).take (min hint (b :: binp).length)).drop j
                  = (sbuf ++ (b :: binp).take (min hint (b :: binp).length)) ++
                    ((b :: binp).drop (min hint (b :: binp).length)).take 0 := by
                rw [List.take_zero, List.append_nil, List.append_assoc]
                congr 1
                conv_lhs =>
                  rw [show (b :: binp).take j
                      = ((b :: binp).take (min hint (b :: binp).length)).take j by
                    rw [List.take_take]
                    congr 1
                    omega]
                exact List.take_append_drop j ((b :: binp).take (min hint (b :: binp).length))
              rw [hy] at hx
              exact hx
            obtain ⟨k1, hk1, hreach1, hp1⟩ := ih
              (StripState.mk (sbuf ++ (b :: binp).take (min hint (b :: binp).length))
                spar false sstk
                ((b :: binp).drop (min hint (b :: binp).length)) sout strc) p c pl 0
              (by show ((b :: binp).drop (min hint (b :: binp).length)).length ≤ N
                  rw [List.length_drop]
                  simp only [List.length_cons] at hN ⊢
                  omega)
              rfl (by omega) hsucc
            dsimp only at hreach1 hp1 hk1
            have hbuf : (sbuf ++ (b :: binp).take (min hint (b :: binp).length)) ++
                  ((b :: binp).drop (min hint (b :: binp).length)).take k1
                = sbuf ++ (b :: binp).take (min hint (b :: binp).length + k1) := by
              rw [List.append_assoc, ← List.take_add]
            have hin : (((b :: binp).drop (min hint (b :: binp).length)).drop k1)
                = (b :: binp).drop (min hint (b :: binp).length + k1) := by
              rw [List.drop_drop, Nat.add_comm]
            rw [hbuf, hin] at hreach1
            rw [hbuf] at hp1
            refine ⟨min hint (b :: binp).length + k1, ?_, ?_, hp1⟩
            · rw [List.length_drop] at hk1
              simp only [List.length_cons] at hk1 ⊢
              omega
            · exact (Reaches.single hstep).trans hreach1
          · have hsucc : parse spar ((sbuf ++ (b :: binp).take (min hint (b :: binp).length)) ++
                ((b :: binp).drop (min hint (b :: binp).length)).take
                  (j - min hint (b :: binp).length)) false
                = .ok (p, .parsed c pl) := by
              have hy : (sbuf ++ (b :: binp).take (min hint (b :: binp).length)) ++
                    ((b :: binp).drop (min hint (b :: binp).length)).take
                      (j - min hint (b :: binp).length)
                  = sbuf ++ (b :: binp).take j := by
                rw [List.append_assoc, ← List.take_add]
                congr 2
                omega
              rw [hy]
              exact hp
            obtain ⟨k1, hk1, hreach1, hp1⟩ := ih
              (StripState.mk (sbuf ++ (b :: binp).take (min hint (b :: binp).length))
                spar false sstk
                ((b :: binp).drop (min hint (b :: binp).length)) sout strc) p c pl
              (j - min hint (b :: binp).length)
              (by show ((b :: binp).drop (min hint (b :: binp).length)).length ≤ N
                  rw [List.length_drop]
                  simp only [List.length_cons] at hN ⊢
                  omega)
              rfl
              (by show j - min hint (b :: binp).length
                    ≤ ((b :: binp).drop (min hint (b :: binp).length)).length
                  rw [List.length_drop]
                  simp only [List.length_cons] at hj ⊢
                  omega)
              hsucc
            dsimp only at hreach1 hp1 hk1
            have hbuf : (sbuf ++ (b :: binp).take (min hint (b :: binp).length)) ++
                  ((b :: binp).drop (min hint (b :: binp).length)).take k1
                = sbuf ++ (b :: binp).take (min hint (b :: binp).length + k1) := by
              rw [List.append_assoc, ← List.take_add]
            have hin : (((b :: binp).drop (min hint (b :: binp).length)).drop k1)
                = (b :: binp).drop (min hint (b :: binp).length + k1) := by
              rw [List.drop_drop, Nat.add_comm]
            rw [hbuf, hin] at hreach1
            rw [hbuf] at hp1
            refine ⟨min hint (b :: binp).length + k1, ?_, ?_, hp1⟩
            · rw [List.length_drop] at hk1
              simp only [List.length_cons] at hk1 ⊢
              omega
            · exact (Reaches.single hstep).trans hreach1

/-! ## Event-level parse facts on encoded sections -/

theorem budgetAtLeast_of_budOk (β : Option Nat) (n t : Nat)
    (h : β = none ∨ β = some (n + t)) : budgetAtLeast β n = true := by
  cases h with
  | inl h => subst h; rfl
  | inr h => subst h; simp [budgetAtLeast]

theorem parse_region_end (buf : List Nat) (eof : Bool) :
    parse (.body (some 0)) buf eof = .ok (.done, .parsed 0 .end_) := by
  simp [parse]

theorem parse_header_ok (β : Option Nat) (hb : budgetAtLeast β 8 = true)
    (ext : List Nat) :
    parse (.header β) (headerBytes ++ ext) false
      = .ok (.body (budgetSub β 8), .parsed 8 .version) := by
  simp only [parse]
  rw [if_pos hb]
  rw [if_neg (by simp [headerBytes])]
  rw [if_pos (by rw [List.take_append_of_le_length (by simp [headerBytes])]; simp [headerBytes])]

theorem parse_entry_pending (size rem : Nat) (after : Option Nat)
    (buf : List Nat) (eof : Bool) :
    parse (.entryPending size rem after) buf eof
      = .ok (mkEntries rem after,
             .parsed 0 (.moduleCodeSectionEntry (.header (some size)))) := rfl

theorem parse_entry_size (S rem : Nat) (after : Option Nat) (ext : List Nat)
    (eof : Bool) (hfit : (leb128 S).length + S ≤ rem) :
    parse (.entries rem after) (leb128 S ++ ext) eof
      = .ok (.entryPending S (rem - (leb128 S).length - S) after,
             .parsed (leb128 S).length .other) := by
  simp only [parse]
  simp only [decodeVarint_leb128]
  rw [if_pos hfit]

theorem parse_other_ok (i : Nat) (payload : List Nat) (β : Option Nat)
    (hi0 : i ≠ customId) (hi15 : i ≠ nestedId)
    (hz : β ≠ some 0)
    (hbud : budgetAtLeast β (encSec (.other i payload)).length = true)
    (ext : List Nat) :
    parse (.body β) (encSec (.other i payload) ++ ext) false
      = .ok (.body (budgetSub β (encSec (.other i payload)).length),
             .parsed (encSec (.other i payload)).length .other) := by
  have hlen : (encSec (.other i payload)).length
      = 1 + (leb128 payload.length).length + payload.length := by
    rw [encSec]
    simp only [List.cons_append, List.length_cons, List.length_append]
    omega
  rw [hlen] at hbud
  rw [hlen]
  rw [encSec]
  simp only [List.cons_append, List.append_assoc]
  simp only [parse]
  rw [if_neg hz]
  simp only [decodeVarint_leb128]
  rw [if_pos hbud]
  rw [if_neg hi0, if_neg hi15]
  rw [if_neg (by simp only [List.length_cons, List.length_append]; omega)]

theorem parse_nested_start (L : Nat) (β : Option Nat)
    (hz : β ≠ some 0)
    (hbud : budgetAtLeast β (1 + (leb128 L).length + L) = true)
    (ext : List Nat) (eof : Bool) :
    parse (.body β) ((nestedId :: leb128 L) ++ ext) eof
      = .ok (mkEntries L (budgetSub β (1 + (leb128 L).length + L)),
             .parsed (1 + (leb128 L).length) .other) := by
  simp only [parse, List.cons_append]
  rw [if_neg hz]
  simp only [decodeVarint_leb128]
  rw [if_pos hbud]
  rw [if_neg (by simp [nestedId, customId])]
  simp

theorem take_len_append (a b : List Nat) (n : Nat) (h : a.length = n) :
    (a ++ b).take n = a := by
  subst h
  exact List.take_left a b

theorem drop_len_append (a b : List Nat) (n : Nat) (h : a.length = n) :
    (a ++ b).drop n = b := by
  subst h
  exact List.drop_left a b

theorem parse_custom_ok (name content : List Nat) (β : Option Nat)
    (hz : β ≠ some 0)
    (hbud : budgetAtLeast β (encSec (.custom name content)).length = true)
    (ext : List Nat) :
    parse (.body β) (encSec (.custom name content) ++ ext) false
      = .ok (.body (budgetSub β (encSec (.custom name content)).length),
             .parsed (encSec (.custom name content)).length (.customSection name)) := by
  have hlen : (encSec (.custom name content)).length
      = 1 + (leb128 (leb128 name.length ++ (name ++ content)).length).length
        + (leb128 name.length ++ (name ++ content)).length := by
    rw [encSec]
    simp only [List.cons_append, List.length_cons, List.length_append, List.append_assoc]
    omega
  rw [hlen] at hbud
  rw [hlen, encSec]
  simp only [List.cons_append, List.append_assoc]
  simp only [parse]
  rw [if_neg hz]
  simp only [decodeVarint_leb128]
  rw [if_pos hbud]
  rw [if_pos trivial]
  rw [if_neg (by simp only [List.length_cons, List.length_append]; omega)]
  have hdrop1 : (customId :: (leb128 (leb128 name.length ++ (name ++ content)).length
        ++ (leb128 name.length ++ (name ++ (content ++ ext))))).drop
        (1 + (leb128 (leb128 name.length ++ (name ++ content)).length).length)
      = leb128 name.length ++ (name ++ (content ++ ext)) := by
    rw [Nat.add_comm, List.drop_succ_cons]
    exact drop_len_append _ _ _ rfl
  rw [hdrop1]
  have htake1 : (leb128 name.length ++ (name ++ (content ++ ext))).take
        (leb128 name.length ++ (name ++ content)).length
      = leb128 name.length ++ (name ++ content) := by
    have h2 : leb128 name.length ++ (name ++ (content ++ ext))
        = (leb128 name.length ++ (name ++ content)) ++ ext := by
      simp [List.append_assoc]
    rw [h2]
    exact take_len_append _ _ _ rfl
  rw [htake1]
  have hdec : decodeVarint (leb128 name.length ++ (name ++ content))
      = some (name.length, (leb128 name.length).length) := decodeVarint_leb128 ..
  simp only [hdec]
  rw [if_pos (by simp only [List.length_append]; omega)]
  have hname : ((leb128 name.length ++ (name ++ content)).drop
        (leb128 name.length).length).take name.length
      = name := by
    rw [drop_len_append _ _ _ rfl]
    exact take_len_append _ _ _ rfl
  rw [hname]

theorem prefix_split (A B E rest : List Nat) (h : A ++ B = E ++ rest)
    (hlen : E.length ≤ A.length) : ∃ ext, A = E ++ ext ∧ ext ++ B = rest := by
  refine ⟨A.drop E.length, ?_, ?_⟩
  · have h1 : A.take E.length = E := by
      have h2 := congrArg (List.take E.length) h
      rw [List.take_append_of_le_length hlen, List.take_left] at h2
      exact h2
    conv_lhs => rw [← List.take_append_drop E.length A]
    rw [h1]
  · have h2 := congrArg (List.drop E.length) h
    rw [List.drop_append_of_le_length hlen, List.drop_left] at h2
    exact h2

theorem fill_event (sname : List Nat) (spar p' : MParser) (pl : Payload)
    (E : List Nat)
    (hE : ∀ ext, parse spar (E ++ ext) false = .ok (p', .parsed E.length pl))
    (sbuf sinp rest sout : List Nat) (sstk : List MParser) (strc : List Evt)
    (hsplit : sbuf ++ sinp = E ++ rest) :
    ∃ bext inp',
      bext ++ inp' = rest ∧
      Reaches sname (StripState.mk sbuf spar false sstk sinp sout strc)
        (StripState.mk (E ++ bext) spar false sstk inp' sout strc) ∧
      parse spar (E ++ bext) false = .ok (p', .parsed E.length pl) := by
  have main : ∀ j, j ≤ sinp.length →
      parse spar (sbuf ++ sinp.take j) false = .ok (p', .parsed E.length pl) →
      ∃ bext inp',
        bext ++ inp' = rest ∧
        Reaches sname (StripState.mk sbuf spar false sstk sinp sout strc)
          (StripState.mk (E ++ bext) spar false sstk inp' sout strc) ∧
        parse spar (E ++ bext) false = .ok (p', .parsed E.length pl) := by
    intro j hj hpj
    obtain ⟨k, hk, hreach, hpk⟩ := fill_to_success sname sinp.length
      (StripState.mk sbuf spar false sstk sinp sout strc) p' E.length pl j
      le_rfl rfl hj hpj
    dsimp only at hk hreach hpk
    have hcontent : (sbuf ++ sinp.take k) ++ sinp.drop k = E ++ rest := by
      rw [List.append_assoc, List.take_append_drop]
      exact hsplit
    have hblen : E.length ≤ (sbuf ++ sinp.take k).length :=
      (parse_parsed_facts spar p' (sbuf ++ sinp.take k) false E.length pl hpk).1
    obtain ⟨bext, hbe, hrest⟩ :=
      prefix_split (sbuf ++ sinp.take k) (sinp.drop k) E rest hcontent hblen
    rw [hbe] at hreach hpk
    exact ⟨bext, sinp.drop k, hrest, hreach, hpk⟩
  by_cases hble : E.length ≤ sbuf.length
  · obtain ⟨ext0, hA, hrest0⟩ := prefix_split sbuf sinp E rest hsplit hble
    refine main 0 (by omega) ?_
    rw [List.take_zero, List.append_nil, hA]
    exact hE ext0
  · have hlensum := congrArg List.length hsplit
    simp only [List.length_append] at hlensum
    refine main (E.length - sbuf.length) (by omega) ?_
    have hbufE : sbuf ++ sinp.take (E.length - sbuf.length) = E := by
      have h3 : sbuf ++ sinp.take (E.length - sbuf.length)
          = (sbuf ++ sinp).take (sbuf.length + (E.length - sbuf.length)) := by
        rw [List.take_append_eq_append_take]
        congr 1
        · rw [List.take_of_length_le (by omega)]
        · congr 1
          omega
      rw [h3, hsplit]
      rw [show sbuf.length + (E.length - sbuf.length) = E.length by omega]
      exact List.take_left ..
    rw [hbufE]
    have h4 := hE []
    rw [List.append_nil] at h4
    exact h4

/-! ## Budget bookkeeping for region parsing -/

/-- The region budget `β` admits `n` bytes now and leaves `β'` after:
either both are the unbounded top level, or `β` counts exactly `n` more
bytes than `β'`. -/
def BudOk (β : Option Nat) (n : Nat) (β' : Option Nat) : Prop :=
  (β = none ∧ β' = none) ∨ ∃ t, β = some (n + t) ∧ β' = some t

theorem budOk_atLeast (β β' : Option Nat) (n : Nat) (h : BudOk β n β') :
    budgetAtLeast β n = true := by
  rcases h with ⟨h1, _⟩ | ⟨t, h1, _⟩ <;> subst h1
  · rfl
  · simp [budgetAtLeast]

theorem budOk_ne_zero (β β' : Option Nat) (n : Nat) (h : BudOk β n β')
    (hn : 1 ≤ n) : β ≠ some 0 := by
  rcases h with ⟨h1, _⟩ | ⟨t, h1, _⟩ <;> subst h1 <;> simp
  omega

theorem budOk_sub (β β' : Option Nat) (n : Nat) (h : BudOk β n β') :
    budgetSub β n = β' := by
  rcases h with ⟨h1, h2⟩ | ⟨t, h1, h2⟩ <;> subst h1 <;> subst h2
  · rfl
  · simp [budgetSub]

theorem budOk_split (β β' : Option Nat) (n1 n2 : Nat)
    (h : BudOk β (n1 + n2) β') :
    ∃ β'', BudOk β n1 β'' ∧ BudOk β'' n2 β' := by
  rcases h with ⟨h1, h2⟩ | ⟨t, h1, h2⟩
  · exact ⟨none, .inl ⟨h1, rfl⟩, .inl ⟨rfl, h2⟩⟩
  · refine ⟨some (n2 + t), .inr ⟨n2 + t, ?_, rfl⟩, .inr ⟨t, rfl, h2⟩⟩
    rw [h1]
    congr 1
    omega

theorem budOk_zero_eq (β β' : Option Nat) (h : BudOk β 0 β') : β' = β := by
  rcases h with ⟨h1, h2⟩ | ⟨t, h1, h2⟩ <;> subst h1 <;> subst h2
  · rfl
  · rw [Nat.zero_add]

/-! ## Lengths of encoded sections -/

theorem encSec_length_pos (sec : Sec) : 1 ≤ (encSec sec).length := by
  cases sec <;> rw [encSec] <;> simp

theorem encSecs_cons_length (s : Sec) (ss : List Sec) :
    (encSecs (s :: ss)).length = (encSec s).length + (encSecs ss).length := by
  rw [encSecs]
  simp

theorem encSecs_nil_eq : encSecs [] = [] := by rw [encSecs]

theorem encMod_eq (m : List Sec) : encMod m = headerBytes ++ encSecs m := rfl

theorem encMod_length (m : List Sec) :
    (encMod m).length = 8 + (encSecs m).length := by
  rw [encMod_eq]
  simp [headerBytes]
  omega

theorem encMods_nil_eq : encMods [] = [] := by rw [encMods]

theorem encMods_cons_eq (m : List Sec) (ms : List (List Sec)) :
    encMods (m :: ms)
      = leb128 (encMod m).length ++ (encMod m ++ encMods ms) := by
  rw [encMods, encMod_eq]
  simp [List.append_assoc]

theorem encMods_cons_length (m : List Sec) (ms : List (List Sec)) :
    (encMods (m :: ms)).length
      = (leb128 (encMod m).length).length + (encMod m).length
        + (encMods ms).length := by
  rw [encMods_cons_eq]
  simp
  omega

theorem fill_and_forward (sname : List Nat) (pre p' : MParser) (pl : Payload)
    (E : List Nat)
    (hE : ∀ ext, parse pre (E ++ ext) false = .ok (p', .parsed E.length pl))
    (hforward : pl = .version ∨ pl = .other ∨
      (∃ nm, pl = .customSection nm ∧ nm ≠ sname))
    (sbuf sinp rest sout : List Nat) (sstk : List MParser) (strc : List Evt)
    (hsplit : sbuf ++ sinp = E ++ rest) :
    ∃ bext inp' trc',
      bext ++ inp' = rest ∧
      Reaches sname (StripState.mk sbuf pre false sstk sinp sout strc)
        (StripState.mk bext p' false sstk inp' (sout ++ E) trc') := by
  obtain ⟨bext, inp', hrest, hreach, hp⟩ :=
    fill_event sname pre p' pl E hE sbuf sinp rest sout sstk strc hsplit
  have htake : (E ++ bext).take E.length = E := take_len_append _ _ _ rfl
  have hdrop : (E ++ bext).drop E.length = bext := drop_len_append _ _ _ rfl
  rcases hforward with h | h | ⟨nm, h, hnm⟩
  · subst h
    have hstep := stripStep_version sname
      (StripState.mk (E ++ bext) pre false sstk inp' sout strc) p' E.length hp
    dsimp only at hstep
    rw [htake, hdrop] at hstep
    exact ⟨bext, inp', _, hrest, hreach.trans (Reaches.single hstep)⟩
  · subst h
    have hstep := stripStep_other sname
      (StripState.mk (E ++ bext) pre false sstk inp' sout strc) p' E.length hp
    dsimp only at hstep
    rw [htake, hdrop] at hstep
    exact ⟨bext, inp', _, hrest, hreach.trans (Reaches.single hstep)⟩
  · subst h
    have hstep := stripStep_custom_other sname nm
      (StripState.mk (E ++ bext) pre false sstk inp' sout strc) p' E.length hnm hp
    dsimp only at hstep
    rw [htake, hdrop] at hstep
    exact ⟨bext, inp', _, hrest, hreach.trans (Reaches.single hstep)⟩

mutual

theorem run_sec (sname : List Nat) (sec : Sec) (β β' : Option Nat)
    (sbuf sinp rest sout : List Nat) (sstk : List MParser) (strc : List Evt)
    (hwf : wfSec sec) (hnn : noNameSec sname sec)
    (hsplit : sbuf ++ sinp = encSec sec ++ rest)
    (hbud : BudOk β (encSec sec).length β') :
    ∃ bext inp' trc',
      bext ++ inp' = rest ∧
      Reaches sname (StripState.mk sbuf (.body β) false sstk sinp sout strc)
        (StripState.mk bext (.body β') false sstk inp' (sout ++ encSec sec) trc') := by
  have hz : β ≠ some 0 :=
    budOk_ne_zero β β' _ hbud (encSec_length_pos sec)
  have hba : budgetAtLeast β (encSec sec).length = true :=
    budOk_atLeast β β' _ hbud
  have hsub : budgetSub β (encSec sec).length = β' := budOk_sub β β' _ hbud
  cases sec with
  | custom name content =>
    have hE : ∀ ext, parse (.body β) (encSec (.custom name content) ++ ext) false
        = .ok (.body β', .parsed (encSec (.custom name content)).length
            (.customSection name)) := by
      intro ext
      rw [← hsub]
      exact parse_custom_ok name content β hz hba ext
    have hnm : name ≠ sname := hnn
    exact fill_and_forward sname (.body β) (.body β') _ _ hE
      (.inr (.inr ⟨name, rfl, hnm⟩)) sbuf sinp rest sout sstk strc hsplit
  | other i payload =>
    obtain ⟨_, hi0, hi15⟩ := hwf
    have hE : ∀ ext, parse (.body β) (encSec (.other i payload) ++ ext) false
        = .ok (.body β', .parsed (encSec (.other i payload)).length .other) := by
      intro ext
      rw [← hsub]
      exact parse_other_ok i payload β hi0 hi15 hz hba ext
    exact fill_and_forward sname (.body β) (.body β') _ _ hE
      (.inr (.inl rfl)) sbuf sinp rest sout sstk strc hsplit
  | nested mods =>
    have hsecLen : (encSec (.nested mods)).length
        = 1 + (leb128 (encMods mods).length).length + (encMods mods).length := by
      rw [encSec]
      simp only [List.cons_append, List.length_cons, List.length_append]
      omega
    have hE : ∀ ext, parse (.body β)
        ((nestedId :: leb128 (encMods mods).length) ++ ext) false
        = .ok (mkEntries (encMods mods).length β',
            .parsed (nestedId :: leb128 (encMods mods).length).length .other) := by
      intro ext
      have h1 := parse_nested_start (encMods mods).length β hz
        (by rw [← hsecLen]; exact hba) ext false
      rw [show (nestedId :: leb128 (encMods mods).length).length
          = 1 + (leb128 (encMods mods).length).length by simp [Nat.add_comm]]
      rw [← hsub, hsecLen]
      exact h1
    have hsplit1 : sbuf ++ sinp
        = (nestedId :: leb128 (encMods mods).length)
          ++ (encMods mods ++ rest) := by
      rw [hsplit, encSec]
      simp [List.append_assoc]
    obtain ⟨bext1, inp1, trc1, hrest1, hreach1⟩ :=
      fill_and_forward sname (.body β) (mkEntries (encMods mods).length β') _ _ hE
        (.inr (.inl rfl)) sbuf sinp _ sout sstk strc hsplit1
    obtain ⟨bext2, inp2, trc2, hrest2, hreach2⟩ :=
      run_mods sname mods β' bext1 inp1 rest
        (sout ++ (nestedId :: leb128 (encMods mods).length)) sstk trc1
        hwf hnn hrest1
    refine ⟨bext2, inp2, trc2, hrest2, hreach1.trans ?_⟩
    have hout : (sout ++ (nestedId :: leb128 (encMods mods).length)) ++ encMods mods
        = sout ++ encSec (.nested mods) := by
      rw [encSec]
      simp [List.append_assoc]
    rw [hout] at hreach2
    exact hreach2
termination_by (sizeOf sec, 0)

theorem run_secs (sname : List Nat) (secs : List Sec) (β β' : Option Nat)
    (sbuf sinp rest sout : List Nat) (sstk : List MParser) (strc : List Evt)
    (hwf : wfSecs secs) (hnn : noNameSecs sname secs)
    (hsplit : sbuf ++ sinp = encSecs secs ++ rest)
    (hbud : BudOk β (encSecs secs).length β') :
    ∃ bext inp' trc',
      bext ++ inp' = rest ∧
      Reaches sname (StripState.mk sbuf (.body β) false sstk sinp sout strc)
        (StripState.mk bext (.body β') false sstk inp'
          (sout ++ encSecs secs) trc') := by
  cases secs with
  | nil =>
    have hβ : β' = β := by
      refine budOk_zero_eq β β' ?_
      rw [show (encSecs []).length = 0 by rw [encSecs_nil_eq]; rfl] at hbud
      exact hbud
    subst hβ
    refine ⟨sbuf, sinp, strc, ?_, ?_⟩
    · rw [hsplit, encSecs_nil_eq, List.nil_append]
    · rw [encSecs_nil_eq, List.append_nil]
      exact Reaches.refl sname _
  | cons s ss =>
    obtain ⟨hwf1, hwf2⟩ := hwf
    obtain ⟨hnn1, hnn2⟩ := hnn
    rw [encSecs_cons_length] at hbud
    obtain ⟨β'', hb1, hb2⟩ := budOk_split β β' _ _ hbud
    have hsplit1 : sbuf ++ sinp = encSec s ++ (encSecs ss ++ rest) := by
      rw [hsplit, encSecs]
      simp [List.append_assoc]
    obtain ⟨bext1, inp1, trc1, hrest1, hreach1⟩ :=
      run_sec sname s β β'' sbuf sinp _ sout sstk strc hwf1 hnn1 hsplit1 hb1
    obtain ⟨bext2, inp2, trc2, hrest2, hreach2⟩ :=
      run_secs sname ss β'' β' bext1 inp1 rest (sout ++ encSec s) sstk trc1
        hwf2 hnn2 hrest1 hb2
    refine ⟨bext2, inp2, trc2, hrest2, hreach1.trans ?_⟩
    have hout : (sout ++ encSec s) ++ encSecs ss = sout ++ encSecs (s :: ss) := by
      rw [encSecs]
      simp [List.append_assoc]
    rw [hout] at hreach2
    exact hreach2
termination_by (sizeOf secs, 0)

theorem run_mods (sname : List Nat) (mods : List (List Sec))
    (after : Option Nat)
    (sbuf sinp rest sout : List Nat) (sstk : List MParser) (strc : List Evt)
    (hwf : wfMods mods) (hnn : noNameMods sname mods)
    (hsplit : sbuf ++ sinp = encMods mods ++ rest) :
    ∃ bext inp' trc',
      bext ++ inp' = rest ∧
      Reaches sname (StripState.mk sbuf
          (mkEntries (encMods mods).length after) false sstk sinp sout strc)
        (StripState.mk bext (.body after) false sstk inp'
          (sout ++ encMods mods) trc') := by
  cases mods with
  | nil =>
    refine ⟨sbuf, sinp, strc, ?_, ?_⟩
    · rw [hsplit, encMods_nil_eq, List.nil_append]
    · have hme : mkEntries (encMods ([] : List (List Sec))).length after
          = .body after := by
        rw [encMods_nil_eq]; rfl
      rw [hme, encMods_nil_eq, List.append_nil]
      exact Reaches.refl sname _
  | cons m ms =>
    obtain ⟨hwf1, hwf2⟩ := hwf
    obtain ⟨hnn1, hnn2⟩ := hnn
    have hvl := leb128_length_pos (encMod m).length
    have hL := encMods_cons_length m ms
    have hent : mkEntries (encMods (m :: ms)).length after
        = .entries (encMods (m :: ms)).length after := by
      unfold mkEntries
      rw [if_neg (by omega)]
    have hE1 : ∀ ext, parse (.entries (encMods (m :: ms)).length after)
        (leb128 (encMod m).length ++ ext) false
        = .ok (.entryPending (encMod m).length (encMods ms).length after,
            .parsed (leb128 (encMod m).length).length .other) := by
      intro ext
      have h1 := parse_entry_size (encMod m).length (encMods (m :: ms)).length
        after ext false (by omega)
      rw [show (encMods (m :: ms)).length - (leb128 (encMod m).length).length
          - (encMod m).length = (encMods ms).length by omega] at h1
      exact h1
    have hsplit1 : sbuf ++ sinp = leb128 (encMod m).length
        ++ (encMod m ++ (encMods ms ++ rest)) := by
      rw [hsplit, encMods_cons_eq]
      simp [List.append_assoc]
    rw [hent]
    obtain ⟨bext1, inp1, trc1, hrest1, hreach1⟩ :=
      fill_and_forward sname (.entries (encMods (m :: ms)).length after)
        (.entryPending (encMod m).length (encMods ms).length after) _ _ hE1
        (.inr (.inl rfl)) sbuf sinp _ sout sstk strc hsplit1
    -- push step
    have hpush := stripStep_push sname
      (StripState.mk bext1 (.entryPending (encMod m).length (encMods ms).length after)
        false sstk inp1 (sout ++ leb128 (encMod m).length) trc1)
      (mkEntries (encMods ms).length after) (.header (some (encMod m).length)) 0
      (parse_entry_pending (encMod m).length (encMods ms).length after bext1 false)
    dsimp only at hpush
    rw [List.drop_zero] at hpush
    obtain ⟨bext2, inp2, trc2, hrest2, hreach2⟩ :=
      run_mod sname m (mkEntries (encMods ms).length after) bext1 inp1
        (encMods ms ++ rest) (sout ++ leb128 (encMod m).length) sstk
        (trc1 ++ [Evt.mk bext1 sstk.length 0
          (.moduleCodeSectionEntry (.header (some (encMod m).length)))])
        hwf1 hnn1 hrest1
    obtain ⟨bext3, inp3, trc3, hrest3, hreach3⟩ :=
      run_mods sname ms after bext2 inp2 rest
        ((sout ++ leb128 (encMod m).length) ++ encMod m) sstk trc2
        hwf2 hnn2 hrest2
    refine ⟨bext3, inp3, trc3, hrest3, ?_⟩
    have hout : ((sout ++ leb128 (encMod m).length) ++ encMod m) ++ encMods ms
        = sout ++ encMods (m :: ms) := by
      rw [encMods_cons_eq]
      simp [List.append_assoc]
    rw [hout] at hreach3
    exact (hreach1.trans (Reaches.single hpush)).trans (hreach2.trans hreach3)
termination_by (sizeOf mods, 0)

theorem run_mod (sname : List Nat) (m : List Sec) (outer : MParser)
    (sbuf sinp rest sout : List Nat) (sstk : List MParser) (strc : List Evt)
    (hwf : wfSecs m) (hnn : noNameSecs sname m)
    (hsplit : sbuf ++ sinp = encMod m ++ rest) :
    ∃ bext inp' trc',
      bext ++ inp' = rest ∧
      Reaches sname (StripState.mk sbuf
          (.header (some (encMod m).length)) false (outer :: sstk) sinp sout strc)
        (StripState.mk bext outer false sstk inp' (sout ++ encMod m) trc') := by
  have hE : ∀ ext, parse (.header (some (encMod m).length))
      (headerBytes ++ ext) false
      = .ok (.body (some (encSecs m).length), .parsed headerBytes.length .version) := by
    intro ext
    have h1 := parse_header_ok (some (encMod m).length)
      (by simp [budgetAtLeast, encMod_length]) ext
    rw [show budgetSub (some (encMod m).length) 8 = some (encSecs m).length by
      simp [budgetSub, encMod_length]] at h1
    rw [show (headerBytes : List Nat).length = 8 from rfl]
    exact h1
  have hsplit1 : sbuf ++ sinp = headerBytes ++ (encSecs m ++ rest) := by
    rw [hsplit, encMod_eq]
    simp [List.append_assoc]
  obtain ⟨bext1, inp1, trc1, hrest1, hreach1⟩ :=
    fill_and_forward sname (.header (some (encMod m).length))
      (.body (some (encSecs m).length)) _ _ hE (.inl rfl)
      sbuf sinp _ sout (outer :: sstk) strc hsplit1
  obtain ⟨bext2, inp2, trc2, hrest2, hreach2⟩ :=
    run_secs sname m (some (encSecs m).length) (some 0) bext1 inp1 rest
      (sout ++ headerBytes) (outer :: sstk) trc1 hwf hnn hrest1
      (.inr ⟨0, by rw [Nat.add_zero], rfl⟩)
  have hpop := stripStep_end_pop sname
    (StripState.mk bext2 (.body (some 0)) false (outer :: sstk) inp2
      ((sout ++ headerBytes) ++ encSecs m) trc2)
    .done outer sstk 0 rfl (parse_region_end bext2 false)
  dsimp only at hpop
  rw [List.drop_zero] at hpop
  have hout : (sout ++ headerBytes) ++ encSecs m = sout ++ encMod m := by
    rw [encMod_eq]
    simp [List.append_assoc]
  rw [hout] at hreach2 hpop
  exact ⟨bext2, inp2, _, hrest2, (hreach1.trans hreach2).trans (Reaches.single hpop)⟩
termination_by (sizeOf m, 1)

end

theorem strip_no_match (sname : List Nat) (m : List Sec)
    (hwf : wfSecs m) (hnn : noNameSecs sname m) :
    ∃ fuel st, stripSection sname (encMod m) fuel = .ok st ∧
      st.output = encMod m := by
  have hE : ∀ ext, parse (.header none) (headerBytes ++ ext) false
      = .ok (.body none, .parsed headerBytes.length .version) := by
    intro ext
    have h1 := parse_header_ok none rfl ext
    rw [show budgetSub none 8 = none from rfl] at h1
    rw [show (headerBytes : List Nat).length = 8 from rfl]
    exact h1
  have hsplit1 : ([] : List Nat) ++ encMod m
      = headerBytes ++ (encSecs m ++ []) := by
    rw [encMod_eq]
    simp
  obtain ⟨bext1, inp1, trc1, hrest1, hreach1⟩ :=
    fill_and_forward sname (.header none) (.body none) _ _ hE (.inl rfl)
      [] (encMod m) _ [] [] [] hsplit1
  obtain ⟨bext2, inp2, trc2, hrest2, hreach2⟩ :=
    run_secs sname m none none bext1 inp1 [] ([] ++ headerBytes) [] trc1
      hwf hnn hrest1 (.inl ⟨rfl, rfl⟩)
  obtain ⟨hb2, hi2⟩ := List.append_eq_nil.mp hrest2
  subst hb2; subst hi2
  simp only [List.nil_append] at hreach1 hreach2
  have hneed : parse (MParser.body none) ([] : List Nat) false
      = .ok (.body none, .needMoreData 1) := rfl
  have hstep := stripStep_needMore sname
    (StripState.mk [] (.body none) false [] []
      (headerBytes ++ encSecs m) trc2) (.body none) 1 hneed rfl
  simp only [List.length_nil, List.take_nil, List.nil_append,
    List.length_replicate, List.drop_nil, Nat.min_zero, Nat.add_zero,
    List.take_zero, List.drop_zero, Nat.sub_zero, beq_self_eq_true] at hstep
  have hreach3 := (hreach1.trans hreach2).trans (Reaches.single hstep)
  have hend : parse (MParser.body none) ([] : List Nat) true
      = .ok (.done, .parsed 0 .end_) := rfl
  have hstep2 := stripStep_end_return sname
    (StripState.mk [] (.body none) true [] []
      (headerBytes ++ encSecs m) trc2) .done 0 rfl hend
  obtain ⟨fuel, hrun⟩ := run_ok_of_reaches sname _ _ _ hreach3 hstep2
  refine ⟨fuel, _, hrun, ?_⟩
  rw [encMod_eq]

theorem parse_needMore_eof_fatal (p p' : MParser) (buf : List Nat) (hint : Nat)
    (h : parse p buf false = .ok (p', .needMoreData hint))
    (hnot : ¬(p = .body none ∧ buf = [])) :
    parse p buf true = .error .malformedInput := by
  cases p with
  | header budget =>
    simp only [parse] at h ⊢
    by_cases hba : budgetAtLeast budget 8 = true
    · rw [if_pos hba] at h ⊢
      by_cases hlen : buf.length < 8
      · rw [if_pos hlen] at h ⊢
        rw [if_pos trivial]
      · rw [if_neg hlen] at h
        split at h <;> simp at h
    · rw [if_neg hba] at h
      simp at h
  | body budget =>
    simp only [parse] at h ⊢
    by_cases h0 : budget = some 0
    · rw [if_pos h0] at h
      simp at h
    · rw [if_neg h0] at h ⊢
      cases buf with
      | nil =>
        have hb : budget ≠ none := by
          intro hbn
          exact hnot ⟨by rw [hbn], rfl⟩
        dsimp only
        rw [if_pos trivial, if_neg hb]
      | cons id rest =>
        cases hdv : decodeVarint rest with
        | none =>
          simp only [hdv] at h ⊢
          rw [if_pos trivial]
        | some v =>
          obtain ⟨len, vl⟩ := v
          simp only [hdv] at h ⊢
          by_cases hba : budgetAtLeast budget (1 + vl + len) = true
          · rw [if_pos hba] at h ⊢
            by_cases hid : id = customId
            · rw [if_pos hid] at h ⊢
              by_cases hl : (id :: rest).length < 1 + vl + len
              · rw [if_pos hl] at h ⊢
                rw [if_pos trivial]
              · rw [if_neg hl] at h
                split at h
                · simp at h
                · split at h
                  · simp at h
                  · simp at h
            · rw [if_neg hid] at h ⊢
              by_cases hn : id = nestedId
              · rw [if_pos hn] at h
                simp at h
              · rw [if_neg hn] at h ⊢
                by_cases hl : (id :: rest).length < 1 + vl + len
                · rw [if_pos hl] at h ⊢
                  rw [if_pos trivial]
                · rw [if_neg hl] at h
                  simp at h
          · rw [if_neg hba] at h
            simp at h
  | entries rem after =>
    simp only [parse] at h ⊢
    cases hdv : decodeVarint buf with
    | none =>
      simp only [hdv] at h ⊢
      rw [if_pos trivial]
    | some v =>
      obtain ⟨size, vl⟩ := v
      simp only [hdv] at h
      split at h <;> simp at h
  | entryPending size rem after =>
    simp only [parse] at h
    simp at h
  | done =>
    simp only [parse] at h
    simp at h

/-- C8: if the input stream ends while a structure is still incomplete,
the strip pass fails with `MalformedInput`: (1) no run ever panics;
(2) a parse attempt that still needs more data fails with
`MalformedInput` once the end-of-input flag is set, except for the clean
end of the top-level region (top-level parser with an empty buffer);
(3) once the end-of-input flag is set while a mid-structure parse still
needs more data, the whole remaining run returns the `MalformedInput`
error immediately, for every remaining fuel — so it neither returns
success nor retries. -/
theorem claim8_eof_mid_structure (sname : List Nat) :
    (∀ input fuel, stripSection sname input fuel ≠ .panic) ∧
    (∀ p p' buf hint, parse p buf false = .ok (p', .needMoreData hint) →
      ¬(p = .body none ∧ buf = []) →
      parse p buf true = .error .malformedInput) ∧
    (∀ s p hint fuel, s.eofile = true →
      parse s.parser s.buffer false = .ok (p, .needMoreData hint) →
      ¬(s.parser = .body none ∧ s.buffer = []) →
      stripRun sname (fuel + 1) s = .err .malformedInput) := by
  refine ⟨?_, ?_, ?_⟩
  · intro input fuel
    exact stripRun_no_panic sname fuel _
  · intro p p' buf hint h hnot
    exact parse_needMore_eof_fatal p p' buf hint h hnot
  · intro s p hint fuel heof h hnot
    refine stripRun_err_terminal sname fuel s .malformedInput ?_
    rw [heof]
    exact parse_needMore_eof_fatal _ p _ hint h hnot

theorem claim8_eof_mid_structure_witness :
    stripRun [1] 3 (StripState.mk (headerBytes.take 4) (.header none) true []
      [] [] []) = .err .malformedInput :=
  (claim8_eof_mid_structure [1]).2.2
    (StripState.mk (headerBytes.take 4) (.header none) true [] [] [] [])
    (.header none) 4 2 rfl rfl (by simp)

/-- C9: for every well-formed module none of whose custom sections (at
any nesting depth) is named `sname` — including modules with nested
structures, where the nesting stack becomes non-empty during the pass —
the strip pass succeeds and its output is byte-for-byte identical to
the input. -/
theorem claim9_no_match_roundtrip (sname : List Nat) (m : List Sec)
    (hwf : wfSecs m) (hnn : noNameSecs sname m) :
    ∃ fuel st, stripSection sname (encMod m) fuel = .ok st ∧
      st.output = encMod m :=
  strip_no_match sname m hwf hnn

theorem claim9_no_match_roundtrip_witness :
    ∃ fuel st,
      stripSection [102, 111, 111]
        (encMod [Sec.custom [98, 97, 114] [1, 2, 3],
                 Sec.nested [[Sec.other 1 [5]], []],
                 Sec.other 2 [7, 8]]) fuel = .ok st ∧
      st.output = encMod [Sec.custom [98, 97, 114] [1, 2, 3],
                 Sec.nested [[Sec.other 1 [5]], []],
                 Sec.other 2 [7, 8]] :=
  claim9_no_match_roundtrip [102, 111, 111]
    [Sec.custom [98, 97, 114] [1, 2, 3],
     Sec.nested [[Sec.other 1 [5]], []],
     Sec.other 2 [7, 8]]
    (by simp [wfSecs, wfSec, wfMods, customId, nestedId])
    (by simp [noNameSecs, noNameSec, noNameMods])
end Bundle
